import Mathlib

/-!
The 15-puzzle (`project.cpp`): embedding and verification

The C++ program is embedded shallowly.  Values of `int` are `Int` (all
coordinates the board code produces lie in `-1 .. 4`, all counters in
`-1 .. 1000`, so no arithmetic comes near the machine bounds).  Code that can
hit an `assert` or index `m_tiles` outside its bounds returns `Except Fault _`.
The process-wide random source is made explicit: `randomize` takes the list of
integers that successive calls of `Random::get(0, max_direction - 1)` return.
Console input is the list of characters that successive calls of
`getCharacter()` return, console output the text written.  Where a statement
ranges over all `int` coordinates, `getAdjacentPointInt32` gives the same
function with wrap-around at the limits of a 32-bit `int`.
-/

namespace Puzzle15

/-- Fatal paths of the program: the three `assert(0 && ...)` statements and an
access to `m_tiles` outside the 4x4 array. -/
inductive Fault
  | unsupportedDirection
  | invalidInput
  | noEmptyTile
  | outOfBounds
  deriving DecidableEq, Repr

deriving instance DecidableEq for Except

/-- The enumeration `Direction::Type`, with its counting sentinel
`max_direction`; a `Direction` object holds one value of it. -/
inductive Direction
  | up
  | down
  | left
  | right
  | max_direction
  deriving DecidableEq, Repr

namespace Direction

/-- The operator `Direction::operator-`: the opposite direction; any value that is not one
of the four cases falls out of the `switch` into the assertion. -/
def neg : Direction → Except Fault Direction
  | up => .ok down
  | down => .ok up
  | left => .ok right
  | right => .ok left
  | max_direction => .error Fault.unsupportedDirection

/-- The cast `static_cast<Type>(n)` of an integer to the enumeration.  The
values `0 .. 3` are the four directions; every other value is no case of any
`switch` of the program and is represented by the sentinel. -/
def ofInt (n : Int) : Direction :=
  if n = 0 then up
  else if n = 1 then down
  else if n = 2 then left
  else if n = 3 then right
  else max_direction

/-- The function `Direction::randomDirection`, given the integer `r` that
`Random::get(0, Type::max_direction - 1)` returned. -/
def randomDirection (r : Int) : Direction :=
  ofInt r

end Direction

/-- The struct `Point`: a pair of `int` coordinates. -/
structure Point where
  x : Int
  y : Int
  deriving DecidableEq, Repr

namespace Point

/-- The function `Point::getAdjacentPoint`: one step in the direction; a value outside the
four cases returns `*this`. -/
def getAdjacentPoint (p : Point) : Direction → Point
  | Direction.up => { x := p.x, y := p.y - 1 }
  | Direction.down => { x := p.x, y := p.y + 1 }
  | Direction.left => { x := p.x - 1, y := p.y }
  | Direction.right => { x := p.x + 1, y := p.y }
  | Direction.max_direction => p

end Point

/-- The class `Tile`: a number, `0` for the empty tile. -/
structure Tile where
  m_number : Int
  deriving DecidableEq, Repr

namespace Tile

/-- The function `Tile::isEmpty`. -/
def isEmpty (t : Tile) : Bool :=
  t.m_number == 0

/-- The function `Tile::getNum`. -/
def getNum (t : Tile) : Int :=
  t.m_number

end Tile

/-- The class `Board`: the array `Tile m_tiles[4][4]`, addressed `m_tiles[y][x]`
(`m_sizeOfBoard` is 4). -/
@[ext]
structure Board where
  m_tiles : Fin 4 → Fin 4 → Tile

/-- The values `0, 1, 2, 3` a loop `for (int i = 0; i < m_sizeOfBoard; ++i)`
runs through, in order. -/
def indices : List (Fin 4) :=
  [0, 1, 2, 3]

/-- The cells `(y, x)` in the order the nested loops
`for y ... for x ...` visit them (row-major). -/
def cellOrder : List (Fin 4 × Fin 4) :=
  indices.flatMap fun y => indices.map fun x => (y, x)

/-- The brace initialiser of `m_tiles`, in memory order. -/
def initTiles : List Int :=
  [1, 2, 3, 4, 5, 6, 7, 8, 9, 10, 11, 12, 13, 14, 15, 0]

/-- An `int` used as an array index of a dimension of size 4: defined only
for `0 .. 3`. -/
def index? (i : Int) : Option (Fin 4) :=
  if h : 0 ≤ i ∧ i < 4 then some ⟨i.toNat, by omega⟩ else none

namespace Board

/-- The constructor `Board() = default`: the default member initialiser of `m_tiles`. -/
def new : Board :=
  { m_tiles := fun y x => { m_number := initTiles.getD (4 * y.val + x.val) 0 } }

/-- The 16 tiles in row-major order. -/
def tiles (b : Board) : List Tile :=
  cellOrder.map fun c => b.m_tiles c.1 c.2

/-- The 16 tile numbers in row-major order. -/
def cells (b : Board) : List Int :=
  b.tiles.map Tile.getNum

/-- Number of cells holding an empty tile. -/
def emptyCount (b : Board) : Nat :=
  b.tiles.countP Tile.isEmpty

/-- The expression `m_tiles[pt.y][pt.x]` read. -/
def tileAt (b : Board) (pt : Point) : Except Fault Tile :=
  match index? pt.y, index? pt.x with
  | some y, some x => .ok (b.m_tiles y x)
  | _, _ => .error Fault.outOfBounds

/-- Assignment of `t` to the cell `m_tiles[y][x]`. -/
def setTile (b : Board) (y x : Fin 4) (t : Tile) : Board :=
  { m_tiles := fun y' x' => if y' = y ∧ x' = x then t else b.m_tiles y' x' }

/-- The function `Board::getEmptyTilePos`: the first empty cell in loop order, as the
point `{ x, y }`; the assertion when the loops end without one. -/
def getEmptyTilePos (b : Board) : Except Fault Point :=
  match cellOrder.find? (fun c => (b.m_tiles c.1 c.2).isEmpty) with
  | some c => .ok { x := (c.2.val : Int), y := (c.1.val : Int) }
  | none => .error Fault.noEmptyTile

/-- The function `Board::isValidTilePos`. -/
def isValidTilePos (pt : Point) : Bool :=
  (decide (pt.x ≥ 0) && decide (pt.x < 4)) && (decide (pt.y ≥ 0) && decide (pt.y < 4))

/-- The function `Board::swapTiles`: `std::swap(m_tiles[pt1.y][pt1.x], m_tiles[pt2.y][pt2.x])`,
that is `tmp = a; a = b; b = tmp`.  The function does no bounds check; an index
outside the array is a fault. -/
def swapTiles (b : Board) (pt1 pt2 : Point) : Except Fault Board :=
  match index? pt1.y, index? pt1.x, index? pt2.y, index? pt2.x with
  | some y1, some x1, some y2, some x2 =>
      let tmp := b.m_tiles y1 x1
      .ok ((b.setTile y1 x1 (b.m_tiles y2 x2)).setTile y2 x2 tmp)
  | _, _, _, _ => .error Fault.outOfBounds

/-- The friend `operator==(const Board&, const Board&)`: false at the first
cell whose numbers differ, true when the loops end. -/
def eq (b1 b2 : Board) : Bool :=
  cellOrder.all fun c => (b1.m_tiles c.1 c.2).getNum == (b2.m_tiles c.1 c.2).getNum

/-- The function `Board::moveTile`: the returned flag and the board after the call. -/
def moveTile (b : Board) (dir : Direction) : Except Fault (Bool × Board) := do
  let emptyTile ← b.getEmptyTilePos
  let adj := emptyTile.getAdjacentPoint (← dir.neg)
  if !isValidTilePos adj then
    return (false, b)
  let b' ← b.swapTiles adj emptyTile
  return (true, b')

/-- The function-local `static Board solvedBoard{}` of `playerWon`. -/
def solvedBoard : Board :=
  Board.new

/-- The function `Board::playerWon`. -/
def playerWon (b : Board) : Bool :=
  b.eq solvedBoard

/-- The loop of `Board::randomize` from a value of `count` on.  `draws` are
the integers the random source returns from now on.  The result is `none`
when the draws run out while `count < 1000` (the call has not completed), and
`some (b, rest)` when the loop has ended with board `b`, leaving `rest`
unread. -/
def randomizeLoop : Int → List Int → Board → Except Fault (Option (Board × List Int))
  | count, [], b => if count < 1000 then .ok none else .ok (some (b, []))
  | count, r :: rest, b =>
      if count < 1000 then
        match b.moveTile (Direction.randomDirection r) with
        | .error f => .error f
        | .ok (success, b') =>
            let count := if !success then count - 1 else count
            randomizeLoop (count + 1) rest b'
      else .ok (some (b, r :: rest))

/-- The function `Board::randomize`. -/
def randomize (draws : List Int) (b : Board) : Except Fault (Option (Board × List Int)) :=
  randomizeLoop 0 draws b

/-- Successive `moveTile` calls, one per direction of the list, the returned
flags dropped: the board after the last call. -/
def moves (b : Board) : List Direction → Except Fault Board
  | [] => .ok b
  | d :: ds =>
      match b.moveTile d with
      | .error f => .error f
      | .ok (_, b') => moves b' ds

/-- Successive `moveTile` calls, one per direction of the list: the flags
they return, in order. -/
def moveFlags (b : Board) : List Direction → Except Fault (List Bool)
  | [] => .ok []
  | d :: ds =>
      match b.moveTile d with
      | .error f => .error f
      | .ok (r, b') =>
          match moveFlags b' ds with
          | .error f => .error f
          | .ok rs => .ok (r :: rs)

/-- The point `{ x, y }` of the cell `m_tiles[y][x]`. -/
def cellPoint (c : Fin 4 × Fin 4) : Point :=
  { x := (c.2.val : Int), y := (c.1.val : Int) }

/-- The board whose cell `c` holds what `b` holds at the cell that the
transposition of `c1` and `c2` sends `c` to. -/
def swapCells (b : Board) (c1 c2 : Fin 4 × Fin 4) : Board :=
  { m_tiles := fun y x => b.m_tiles (Equiv.swap c1 c2 (y, x)).1 (Equiv.swap c1 c2 (y, x)).2 }

end Board

/-- One call of a public mutating member function of `Board`. -/
inductive Op
  | move (dir : Direction)
  | swap (pt1 pt2 : Point)

namespace Op

/-- The calls considered: `moveTile` with one of the four directions,
`swapTiles` with two points inside the grid. -/
def inBounds : Op → Prop
  | move dir => dir ≠ Direction.max_direction
  | swap pt1 pt2 => Board.isValidTilePos pt1 = true ∧ Board.isValidTilePos pt2 = true

end Op

namespace Board

/-- The board after one call. -/
def applyOp (b : Board) : Op → Except Fault Board
  | Op.move dir =>
      match b.moveTile dir with
      | .error f => .error f
      | .ok (_, b') => .ok b'
  | Op.swap pt1 pt2 => b.swapTiles pt1 pt2

/-- The board after a sequence of calls. -/
def applyOps (b : Board) : List Op → Except Fault Board
  | [] => .ok b
  | op :: ops =>
      match b.applyOp op with
      | .error f => .error f
      | .ok b' => applyOps b' ops

end Board

/-- The values of a 32-bit `int`. -/
def isInt (v : Int) : Prop :=
  -2147483648 ≤ v ∧ v ≤ 2147483647

/-- The result of an `int` computation whose exact value is `v`, with
two's-complement wrap-around at the limits of a 32-bit `int`. -/
def wrapInt (v : Int) : Int :=
  (v + 2147483648) % 4294967296 - 2147483648

namespace Point

/-- The function `Point::getAdjacentPoint` on 32-bit `int` coordinates: the
results of `y - 1`, `y + 1`, `x - 1` and `x + 1` wrap around at the limits of
`int`.  It agrees with `getAdjacentPoint` wherever these stay within `int`. -/
def getAdjacentPointInt32 (p : Point) : Direction → Point
  | Direction.up => { x := p.x, y := wrapInt (p.y - 1) }
  | Direction.down => { x := p.x, y := wrapInt (p.y + 1) }
  | Direction.left => { x := wrapInt (p.x - 1), y := p.y }
  | Direction.right => { x := wrapInt (p.x + 1), y := p.y }
  | Direction.max_direction => p

end Point

namespace UserInput

/-- The function `UserInput::isValidCommand`. -/
def isValidCommand (c : Char) : Bool :=
  c == 'w' || c == 'a' || c == 's' || c == 'd' || c == 'q'

/-- The loop `while (!isValidCommand(ch)) ch = getCharacter();` from a value of
`ch` on.  `input` are the characters successive calls of `getCharacter()`
return.  The result is `none` when the input runs out while the loop still
waits, and `some (ch, rest)` when the loop has ended, leaving `rest` unread. -/
def getCommandLoop : Char → List Char → Option (Char × List Char)
  | ch, [] => if !isValidCommand ch then none else some (ch, [])
  | ch, c :: rest => if !isValidCommand ch then getCommandLoop c rest else some (ch, c :: rest)

/-- The function `UserInput::getCommandFromUser`: the loop started with
`char ch{}`, the character of code 0. -/
def getCommandFromUser (input : List Char) : Option (Char × List Char) :=
  getCommandLoop (Char.ofNat 0) input

/-- The function `UserInput::charToDirection`: a character that is no case of
the `switch` falls into the assertion. -/
def charToDirection (ch : Char) : Except Fault Direction :=
  if ch = 'w' then .ok Direction.up
  else if ch = 's' then .ok Direction.down
  else if ch = 'a' then .ok Direction.left
  else if ch = 'd' then .ok Direction.right
  else .error Fault.invalidInput

end UserInput

/-- The constant `g_consoleLines`. -/
def g_consoleLines : Int :=
  25

/-- The text `out << n` writes for an `int`: its decimal digits, with a
leading minus sign when negative. -/
def intText (n : Int) : String :=
  toString n

namespace Tile

/-- The friend `operator<<(std::ostream&, const Tile&)`: the text written. -/
def output (t : Tile) : String :=
  if t.m_number > 9 then " " ++ intText t.m_number ++ " "
  else if t.m_number > 0 then "  " ++ intText t.m_number ++ " "
  else if t.m_number == 0 then "    "
  else ""

end Tile

namespace Board

/-- The function `Board::printEmptyLines`: the text written, one newline per
pass of `for (int i = 0; i < count; ++i)`. -/
def printEmptyLines (count : Int) : String :=
  String.mk (List.replicate count.toNat (Char.ofNat 10))

/-- One pass of the outer loop of the board's `operator<<`: the four tiles of
row `y`, then a newline. -/
def outputRow (b : Board) (y : Fin 4) : String :=
  String.join (indices.map fun x => (b.m_tiles y x).output) ++ "\n"

/-- The friend `operator<<(std::ostream&, Board)`: the text written when `out`
is `std::cout` (where `printEmptyLines` writes), as in `main`. -/
def output (b : Board) : String :=
  printEmptyLines g_consoleLines ++ String.join (indices.map fun y => b.outputRow y)

end Board

namespace Board

/-- Whether the call `moveTile(dir)` on the board returns true. -/
def accepts (b : Board) (dir : Direction) : Bool :=
  match b.moveTile dir with
  | .ok (true, _) => true
  | _ => false

end Board

/-- How one pass through the body of the `while` loop of `main` ends. -/
inductive IterResult
  | returned (code : Int) (text : String)
  | next (board : Board) (rest : List Char) (text : String)
  | waiting

/-- How a run of `main` ends: `exited` by a `return`, with the exit code, all
text written and the board at that moment; `waiting` for input that does not
come; `unfinished` when the fuel or the random draws given do not suffice. -/
inductive RunResult
  | exited (code : Int) (out : String) (board : Board)
  | waiting (out : String) (board : Board)
  | unfinished

/-- The body of the `while` loop of `main` on the current board, given the
characters `getCharacter()` returns from now on: a `return`, or the board, the
unread input and the text written when the body ends. -/
def mainBody (board : Board) (input : List Char) : Except Fault IterResult :=
  match UserInput.getCommandFromUser input with
  | none => .ok IterResult.waiting
  | some (ch, rest) =>
      if ch = 'q' then .ok (IterResult.returned 0 "\n\nBye\n\n")
      else
        match UserInput.charToDirection ch with
        | .error f => .error f
        | .ok dir =>
            match board.moveTile dir with
            | .error f => .error f
            | .ok (userMoved, board') =>
                .ok (IterResult.next board' rest (if userMoved then board'.output else ""))

/-- The `while (!board.playerWon())` loop of `main` and what follows it; `out`
is the text written so far, `fuel` bounds the number of passes. -/
def mainLoop : Nat → Board → List Char → String → Except Fault RunResult
  | 0, _, _, _ => .ok RunResult.unfinished
  | fuel + 1, board, input, out =>
      if !board.playerWon then
        match mainBody board input with
        | .error f => .error f
        | .ok (IterResult.returned code text) => .ok (RunResult.exited code (out ++ text) board)
        | .ok IterResult.waiting => .ok (RunResult.waiting out board)
        | .ok (IterResult.next board' rest text) => mainLoop fuel board' rest (out ++ text)
      else .ok (RunResult.exited 0 (out ++ "\n\nYou won!!!\n\n") board)

/-- The function `main`, given the random draws and the input characters.
Every pass of the loop reads at least one character, so `input.length + 1`
passes are enough fuel. -/
def main (draws : List Int) (input : List Char) : Except Fault RunResult :=
  match Board.new.randomize draws with
  | .error f => .error f
  | .ok none => .ok RunResult.unfinished
  | .ok (some (board, _)) => mainLoop (input.length + 1) board input board.output

end Puzzle15

namespace Puzzle15

/-! ## Cells and indices -/

theorem mem_cellOrder (c : Fin 4 × Fin 4) : c ∈ cellOrder := by
  revert c; decide

theorem cellOrder_nodup : cellOrder.Nodup := by decide

theorem index?_val (i : Fin 4) : index? (i.val : Int) = some i := by
  unfold index?
  have : 0 ≤ (i.val : Int) ∧ (i.val : Int) < 4 := by omega
  simp [this]

theorem index?_eq_some {i : Int} {k : Fin 4} : index? i = some k ↔ i = (k.val : Int) := by
  constructor
  · intro h
    unfold index? at h
    split at h
    · simp at h; subst h; simp; omega
    · simp at h
  · rintro rfl; exact index?_val k

theorem index?_eq_none {i : Int} : index? i = none ↔ ¬ (0 ≤ i ∧ i < 4) := by
  unfold index?
  split <;> simp_all

namespace Board

theorem isValidTilePos_iff (p : Point) :
    isValidTilePos p = true ↔ (0 ≤ p.x ∧ p.x < 4) ∧ (0 ≤ p.y ∧ p.y < 4) := by
  simp [isValidTilePos]

theorem isValidTilePos_cellPoint (c : Fin 4 × Fin 4) : isValidTilePos (cellPoint c) = true := by
  rw [isValidTilePos_iff]; simp only [cellPoint]; omega

theorem exists_cell_of_isValidTilePos {p : Point} (h : isValidTilePos p = true) :
    ∃ c : Fin 4 × Fin 4, p = cellPoint c := by
  rw [isValidTilePos_iff] at h
  refine ⟨(⟨p.y.toNat, by omega⟩, ⟨p.x.toNat, by omega⟩), ?_⟩
  cases p with
  | mk x y =>
    simp only [cellPoint, Point.mk.injEq]
    constructor <;> simp at h ⊢ <;> omega

theorem cellPoint_injective {c c' : Fin 4 × Fin 4} (h : cellPoint c = cellPoint c') : c = c' := by
  simp only [cellPoint, Point.mk.injEq] at h
  ext <;> omega

theorem tileAt_cellPoint (b : Board) (c : Fin 4 × Fin 4) :
    b.tileAt (cellPoint c) = .ok (b.m_tiles c.1 c.2) := by
  simp [tileAt, cellPoint, index?_val]

theorem tileAt_of_not_valid (b : Board) {p : Point} (h : isValidTilePos p = false) :
    b.tileAt p = .error Fault.outOfBounds := by
  have h' : ¬ ((0 ≤ p.x ∧ p.x < 4) ∧ (0 ≤ p.y ∧ p.y < 4)) := by
    rw [← isValidTilePos_iff]; simp [h]
  unfold tileAt
  cases hy : index? p.y with
  | none => rfl
  | some y =>
    cases hx : index? p.x with
    | none => rfl
    | some x =>
      rw [index?_eq_some] at hy hx
      exact absurd ⟨by omega, by omega⟩ h'

/-! ## Swapping two cells -/

theorem swapTiles_cellPoint (b : Board) (c1 c2 : Fin 4 × Fin 4) :
    b.swapTiles (cellPoint c1) (cellPoint c2) = .ok (b.swapCells c1 c2) := by
  obtain ⟨y1, x1⟩ := c1
  obtain ⟨y2, x2⟩ := c2
  simp only [swapTiles, cellPoint, index?_val]
  congr 1
  ext y x : 3
  simp only [setTile, swapCells, Equiv.swap_apply_def, Prod.mk.injEq]
  by_cases h2 : y = y2 ∧ x = x2
  · obtain ⟨rfl, rfl⟩ := h2
    by_cases h1 : y = y1 ∧ x = x1
    · obtain ⟨rfl, rfl⟩ := h1; simp
    · simp [h1]
  · by_cases h1 : y = y1 ∧ x = x1
    · obtain ⟨rfl, rfl⟩ := h1; simp [h2]
    · simp [h1, h2]

theorem tiles_swapCells (b : Board) (c1 c2 : Fin 4 × Fin 4) :
    (b.swapCells c1 c2).tiles =
      (cellOrder.map (Equiv.swap c1 c2)).map fun c => b.m_tiles c.1 c.2 := by
  simp [tiles, swapCells, List.map_map, Function.comp_def]

theorem cellOrder_map_perm (σ : Equiv.Perm (Fin 4 × Fin 4)) :
    (cellOrder.map σ).Perm cellOrder := by
  rw [List.perm_ext_iff_of_nodup (cellOrder_nodup.map σ.injective) cellOrder_nodup]
  intro c
  refine ⟨fun _ => mem_cellOrder c, fun _ => ?_⟩
  exact List.mem_map.2 ⟨σ.symm c, mem_cellOrder _, by simp⟩

theorem tiles_swapCells_perm (b : Board) (c1 c2 : Fin 4 × Fin 4) :
    (b.swapCells c1 c2).tiles.Perm b.tiles := by
  rw [tiles_swapCells]
  exact (cellOrder_map_perm _).map _

theorem emptyCount_swapCells (b : Board) (c1 c2 : Fin 4 × Fin 4) :
    (b.swapCells c1 c2).emptyCount = b.emptyCount :=
  (tiles_swapCells_perm b c1 c2).countP_eq _

theorem swapCells_swapCells (b : Board) (c1 c2 : Fin 4 × Fin 4) :
    (b.swapCells c1 c2).swapCells c2 c1 = b := by
  ext y x : 3
  simp [swapCells, Equiv.swap_comm c2 c1]


/-! ## The empty tile -/

theorem emptyCount_eq (b : Board) :
    b.emptyCount = cellOrder.countP (fun c => (b.m_tiles c.1 c.2).isEmpty) := by
  simp only [emptyCount, tiles, List.countP_map]
  rfl

theorem getEmptyTilePos_of_find {b : Board} {c : Fin 4 × Fin 4}
    (h : cellOrder.find? (fun c => (b.m_tiles c.1 c.2).isEmpty) = some c) :
    b.getEmptyTilePos = .ok (cellPoint c) := by
  simp [getEmptyTilePos, h, cellPoint]

theorem exists_getEmptyTilePos (b : Board) (h : 0 < b.emptyCount) :
    ∃ c, b.getEmptyTilePos = .ok (cellPoint c) ∧ (b.m_tiles c.1 c.2).isEmpty = true := by
  rw [emptyCount_eq, List.countP_pos_iff] at h
  obtain ⟨a, ha, hpa⟩ := h
  cases hf : cellOrder.find? (fun c => (b.m_tiles c.1 c.2).isEmpty) with
  | none =>
    rw [List.find?_eq_none] at hf
    exact absurd hpa (hf a ha)
  | some c =>
    exact ⟨c, getEmptyTilePos_of_find hf, by simpa using List.find?_some hf⟩

theorem getEmptyTilePos_inv {b : Board} {p : Point} (h : b.getEmptyTilePos = .ok p) :
    ∃ c, p = cellPoint c ∧ (b.m_tiles c.1 c.2).isEmpty = true := by
  unfold getEmptyTilePos at h
  cases hf : cellOrder.find? (fun c => (b.m_tiles c.1 c.2).isEmpty) with
  | none => rw [hf] at h; cases h
  | some c =>
    rw [hf] at h
    injection h with h
    exact ⟨c, h.symm, by simpa using List.find?_some hf⟩

theorem empty_unique {b : Board} (h : b.emptyCount = 1) {c c' : Fin 4 × Fin 4}
    (hc : (b.m_tiles c.1 c.2).isEmpty = true) (hc' : (b.m_tiles c'.1 c'.2).isEmpty = true) :
    c = c' := by
  rw [emptyCount_eq, List.countP_eq_length_filter, List.length_eq_one] at h
  obtain ⟨a, ha⟩ := h
  have m : c ∈ cellOrder.filter (fun c => (b.m_tiles c.1 c.2).isEmpty) :=
    List.mem_filter.2 ⟨mem_cellOrder c, hc⟩
  have m' : c' ∈ cellOrder.filter (fun c => (b.m_tiles c.1 c.2).isEmpty) :=
    List.mem_filter.2 ⟨mem_cellOrder c', hc'⟩
  rw [ha, List.mem_singleton] at m m'
  rw [m, m']

/-! ## One call of `moveTile` -/

theorem neg_ok {d : Direction} (hd : d ≠ Direction.max_direction) :
    ∃ nd, d.neg = .ok nd ∧ nd ≠ Direction.max_direction ∧ nd.neg = .ok d := by
  cases d <;> first | exact absurd rfl hd | exact ⟨_, rfl, by decide, rfl⟩

theorem moveTile_rejected {b : Board} {d nd : Direction} {e : Point}
    (he : b.getEmptyTilePos = .ok e) (hn : d.neg = .ok nd)
    (hv : isValidTilePos (e.getAdjacentPoint nd) = false) :
    b.moveTile d = .ok (false, b) := by
  simp [moveTile, he, hn, hv, bind, Except.bind, pure, Except.pure]

theorem moveTile_accepted {b : Board} {d nd : Direction} {ce ca : Fin 4 × Fin 4}
    (he : b.getEmptyTilePos = .ok (cellPoint ce)) (hn : d.neg = .ok nd)
    (ha : (cellPoint ce).getAdjacentPoint nd = cellPoint ca) :
    b.moveTile d = .ok (true, b.swapCells ca ce) := by
  simp [moveTile, he, hn, ha, isValidTilePos_cellPoint, swapTiles_cellPoint, bind, Except.bind,
    pure, Except.pure]

/-- What one call does on a board that has an empty tile, for a direction that
is one of the four: with `ce` the cell `getEmptyTilePos` finds and `nd` the
inverted direction, either the neighbour of `ce` in direction `nd` is outside
the grid and the call returns `false` and the same board, or it is a cell `ca`
and the call returns `true` and the board with `ca` and `ce` exchanged. -/
theorem moveTile_cases (b : Board) (d : Direction) (h : 0 < b.emptyCount)
    (hd : d ≠ Direction.max_direction) :
    ∃ ce nd, b.getEmptyTilePos = .ok (cellPoint ce) ∧ (b.m_tiles ce.1 ce.2).isEmpty = true ∧
      d.neg = .ok nd ∧ nd ≠ Direction.max_direction ∧ nd.neg = .ok d ∧
      ((isValidTilePos ((cellPoint ce).getAdjacentPoint nd) = false ∧
          b.moveTile d = .ok (false, b)) ∨
        ∃ ca, (cellPoint ce).getAdjacentPoint nd = cellPoint ca ∧
          b.moveTile d = .ok (true, b.swapCells ca ce)) := by
  obtain ⟨ce, he, hce⟩ := exists_getEmptyTilePos b h
  obtain ⟨nd, hn, hnd, hnn⟩ := neg_ok hd
  refine ⟨ce, nd, he, hce, hn, hnd, hnn, ?_⟩
  cases hv : isValidTilePos ((cellPoint ce).getAdjacentPoint nd) with
  | false => exact Or.inl ⟨rfl, moveTile_rejected he hn hv⟩
  | true =>
    obtain ⟨ca, hca⟩ := exists_cell_of_isValidTilePos hv
    exact Or.inr ⟨ca, hca, moveTile_accepted he hn hca⟩

theorem getAdjacentPoint_ne {p : Point} {d : Direction} (hd : d ≠ Direction.max_direction) :
    p.getAdjacentPoint d ≠ p := by
  cases p with
  | mk x y =>
    cases d <;> first | exact absurd rfl hd | (simp [Point.getAdjacentPoint])

theorem getAdjacentPoint_neg {p : Point} {d nd : Direction} (hn : d.neg = .ok nd) :
    (p.getAdjacentPoint nd).getAdjacentPoint d = p := by
  cases p with
  | mk x y =>
    cases d <;> simp [Direction.neg] at hn <;> subst hn <;> simp [Point.getAdjacentPoint]

theorem swapCells_apply_left (b : Board) (c1 c2 : Fin 4 × Fin 4) :
    (b.swapCells c1 c2).m_tiles c1.1 c1.2 = b.m_tiles c2.1 c2.2 := by
  simp [swapCells]

theorem swapCells_apply_right (b : Board) (c1 c2 : Fin 4 × Fin 4) :
    (b.swapCells c1 c2).m_tiles c2.1 c2.2 = b.m_tiles c1.1 c1.2 := by
  simp [swapCells]

theorem swapCells_apply_of_ne (b : Board) {c1 c2 c : Fin 4 × Fin 4} (h1 : c ≠ c1) (h2 : c ≠ c2) :
    (b.swapCells c1 c2).m_tiles c.1 c.2 = b.m_tiles c.1 c.2 := by
  simp [swapCells, Equiv.swap_apply_of_ne_of_ne h1 h2]


theorem getEmptyTilePos_eq_of_unique {b : Board} (h : b.emptyCount = 1) {c : Fin 4 × Fin 4}
    (hc : (b.m_tiles c.1 c.2).isEmpty = true) : b.getEmptyTilePos = .ok (cellPoint c) := by
  obtain ⟨c', he, hc'⟩ := exists_getEmptyTilePos b (by omega)
  rw [he, empty_unique h hc' hc]

/-! ## Claims about a single move -/

/-- C1: on a board with exactly one empty tile, for a direction `d` that is one
of the four, `e = getEmptyTilePos()` and `-d` are computed without a fault, and
if `a = e.getAdjacentPoint(-d)` is inside the grid then `moveTile(d)` returns
true and the new board is the old one with the contents of the cells `a` and
`e` exchanged and every other cell unchanged. -/
theorem C1_moveTile_exchanges_cells (b : Board) (d : Direction) (h1 : b.emptyCount = 1)
    (hd : d ≠ Direction.max_direction) :
    ∃ e nd, b.getEmptyTilePos = .ok e ∧ d.neg = .ok nd ∧
      (isValidTilePos (e.getAdjacentPoint nd) = true →
        ∃ ce ca b', e = cellPoint ce ∧ e.getAdjacentPoint nd = cellPoint ca ∧
          b.moveTile d = .ok (true, b') ∧
          b'.m_tiles ca.1 ca.2 = b.m_tiles ce.1 ce.2 ∧
          b'.m_tiles ce.1 ce.2 = b.m_tiles ca.1 ca.2 ∧
          ∀ c, c ≠ ca → c ≠ ce → b'.m_tiles c.1 c.2 = b.m_tiles c.1 c.2) := by
  obtain ⟨ce, nd, he, _, hn, _, _, hcase⟩ := moveTile_cases b d (by omega) hd
  refine ⟨cellPoint ce, nd, he, hn, fun hv => ?_⟩
  rcases hcase with ⟨hv', _⟩ | ⟨ca, hca, hm⟩
  · rw [hv] at hv'; cases hv'
  · exact ⟨ce, ca, b.swapCells ca ce, rfl, hca, hm, swapCells_apply_left b ca ce,
      swapCells_apply_right b ca ce, fun c h1 h2 => swapCells_apply_of_ne b h1 h2⟩

/-- Witness of C1: the fresh board and `down`. -/
theorem C1_moveTile_exchanges_cells_witness :
    Board.new.emptyCount = 1 ∧ Direction.down ≠ Direction.max_direction ∧
    ∃ e nd, Board.new.getEmptyTilePos = .ok e ∧ Direction.down.neg = .ok nd ∧
      (isValidTilePos (e.getAdjacentPoint nd) = true →
        ∃ ce ca b', e = cellPoint ce ∧ e.getAdjacentPoint nd = cellPoint ca ∧
          Board.new.moveTile Direction.down = .ok (true, b') ∧
          b'.m_tiles ca.1 ca.2 = Board.new.m_tiles ce.1 ce.2 ∧
          b'.m_tiles ce.1 ce.2 = Board.new.m_tiles ca.1 ca.2 ∧
          ∀ c, c ≠ ca → c ≠ ce → b'.m_tiles c.1 c.2 = Board.new.m_tiles c.1 c.2) :=
  ⟨by decide, by decide,
    C1_moveTile_exchanges_cells Board.new Direction.down (by decide) (by decide)⟩

/-- C2: on a board with exactly one empty tile, for a direction `d` that is one
of the four, `moveTile(d)` returns a flag and a board; the flag is false if and
only if the point adjacent to the empty tile in direction `-d` fails
`isValidTilePos`, and when it is false the board is the one before the call. -/
theorem C2_moveTile_rejects_iff_invalid (b : Board) (d : Direction) (h1 : b.emptyCount = 1)
    (hd : d ≠ Direction.max_direction) :
    ∃ e nd r b', b.getEmptyTilePos = .ok e ∧ d.neg = .ok nd ∧ b.moveTile d = .ok (r, b') ∧
      (r = false ↔ isValidTilePos (e.getAdjacentPoint nd) = false) ∧
      (r = false → b' = b) := by
  obtain ⟨ce, nd, he, _, hn, _, _, hcase⟩ := moveTile_cases b d (by omega) hd
  rcases hcase with ⟨hv, hm⟩ | ⟨ca, hca, hm⟩
  · exact ⟨cellPoint ce, nd, false, b, he, hn, hm, by simp [hv], fun _ => rfl⟩
  · refine ⟨cellPoint ce, nd, true, b.swapCells ca ce, he, hn, hm, ?_, ?_⟩
    · simp [hca, isValidTilePos_cellPoint]
    · intro h; cases h

/-- Witness of C2: the fresh board and `up`, which is rejected. -/
theorem C2_moveTile_rejects_iff_invalid_witness :
    Board.new.emptyCount = 1 ∧ Direction.up ≠ Direction.max_direction ∧
    ∃ e nd r b', Board.new.getEmptyTilePos = .ok e ∧ Direction.up.neg = .ok nd ∧
      Board.new.moveTile Direction.up = .ok (r, b') ∧
      (r = false ↔ isValidTilePos (e.getAdjacentPoint nd) = false) ∧
      (r = false → b' = Board.new) :=
  ⟨by decide, by decide,
    C2_moveTile_rejects_iff_invalid Board.new Direction.up (by decide) (by decide)⟩

/-- C3, as the specification states it, fails on the fresh board: `moveTile(right)`
and `moveTile(down)` return true, `moveTile(up)` and `moveTile(left)` return
false, the opposite of what is claimed. -/
theorem C3_counterexample :
    (Board.new.moveTile Direction.right).map Prod.fst = .ok true ∧
    (Board.new.moveTile Direction.down).map Prod.fst = .ok true ∧
    (Board.new.moveTile Direction.up).map Prod.fst = .ok false ∧
    (Board.new.moveTile Direction.left).map Prod.fst = .ok false ∧
    ¬ ((Board.new.moveTile Direction.right).map Prod.fst = .ok false ∧
       (Board.new.moveTile Direction.down).map Prod.fst = .ok false ∧
       (Board.new.moveTile Direction.up).map Prod.fst = .ok true ∧
       (Board.new.moveTile Direction.left).map Prod.fst = .ok true) := by
  decide

/-- C3, amended: on the freshly constructed board the empty tile is at
`x = 3, y = 3`; `moveTile(up)` and `moveTile(left)` are rejected and leave the
board as it is; `moveTile(down)` and `moveTile(right)` succeed, each swapping
the empty tile with its neighbour, so that the empty tile ends at `(3, 2)`
after `down` and at `(2, 3)` after `right`. -/
theorem C3_fresh_board_moves :
    Board.new.getEmptyTilePos = .ok { x := 3, y := 3 } ∧
    Board.new.moveTile Direction.up = .ok (false, Board.new) ∧
    Board.new.moveTile Direction.left = .ok (false, Board.new) ∧
    ∃ bd br,
      Board.new.moveTile Direction.down = .ok (true, bd) ∧
      bd.getEmptyTilePos = .ok { x := 3, y := 2 } ∧
      bd.cells = [1, 2, 3, 4, 5, 6, 7, 8, 9, 10, 11, 0, 13, 14, 15, 12] ∧
      Board.new.moveTile Direction.right = .ok (true, br) ∧
      br.getEmptyTilePos = .ok { x := 2, y := 3 } ∧
      br.cells = [1, 2, 3, 4, 5, 6, 7, 8, 9, 10, 11, 12, 13, 14, 0, 15] := by
  have he : Board.new.getEmptyTilePos = .ok (cellPoint (3, 3)) := by decide
  refine ⟨by decide, moveTile_rejected he rfl (by decide), moveTile_rejected he rfl (by decide),
    Board.new.swapCells (2, 3) (3, 3), Board.new.swapCells (3, 2) (3, 3),
    moveTile_accepted he rfl (by decide), by decide, by decide,
    moveTile_accepted he rfl (by decide), by decide, by decide⟩

/-- C4, as the specification states it, fails: on the fresh board `moveTile(down)`
succeeds, the empty tile was at `(3, 3)` and is at `(3, 2)` afterwards, which is
not `(3, 3).getAdjacentPoint(down) = (3, 4)`. -/
theorem C4_counterexample :
    Board.new.emptyCount = 1 ∧
    Board.new.getEmptyTilePos = .ok { x := 3, y := 3 } ∧
    ∃ b', Board.new.moveTile Direction.down = .ok (true, b') ∧
      b'.getEmptyTilePos = .ok { x := 3, y := 2 } ∧
      b'.getEmptyTilePos ≠
        .ok (Point.getAdjacentPoint { x := 3, y := 3 } Direction.down) := by
  have he : Board.new.getEmptyTilePos = .ok (cellPoint (3, 3)) := by decide
  exact ⟨by decide, by decide, Board.new.swapCells (2, 3) (3, 3),
    moveTile_accepted he rfl (by decide), by decide, by decide⟩

/-- C4, amended: on a board with exactly one empty tile, for a direction `D`
that is one of the four, if `moveTile(D)` succeeds then the empty slot has moved
in direction `-D` (the tile beside it has moved in direction `D`): the empty
tile's position after the call is `getAdjacentPoint(-D)` of its position
before the call. -/
theorem C4_empty_moves_opposite (b : Board) (d : Direction) (h1 : b.emptyCount = 1)
    (hd : d ≠ Direction.max_direction) :
    ∃ e nd r b', b.getEmptyTilePos = .ok e ∧ d.neg = .ok nd ∧ b.moveTile d = .ok (r, b') ∧
      (r = true → b'.getEmptyTilePos = .ok (e.getAdjacentPoint nd)) := by
  obtain ⟨ce, nd, he, hce, hn, _, _, hcase⟩ := moveTile_cases b d (by omega) hd
  rcases hcase with ⟨_, hm⟩ | ⟨ca, hca, hm⟩
  · exact ⟨cellPoint ce, nd, false, b, he, hn, hm, fun h => by cases h⟩
  · refine ⟨cellPoint ce, nd, true, b.swapCells ca ce, he, hn, hm, fun _ => ?_⟩
    rw [hca]
    apply getEmptyTilePos_eq_of_unique
    · rw [emptyCount_swapCells]; exact h1
    · rw [swapCells_apply_left]; exact hce

/-- Witness of C4 (amended): the fresh board and `right`. -/
theorem C4_empty_moves_opposite_witness :
    Board.new.emptyCount = 1 ∧ Direction.right ≠ Direction.max_direction ∧
    ∃ e nd r b', Board.new.getEmptyTilePos = .ok e ∧ Direction.right.neg = .ok nd ∧
      Board.new.moveTile Direction.right = .ok (r, b') ∧
      (r = true → b'.getEmptyTilePos = .ok (e.getAdjacentPoint nd)) :=
  ⟨by decide, by decide,
    C4_empty_moves_opposite Board.new Direction.right (by decide) (by decide)⟩


/-! ## Invariants of the board -/

theorem moveTile_ok (b : Board) (d : Direction) (h : 0 < b.emptyCount)
    (hd : d ≠ Direction.max_direction) :
    ∃ r b', b.moveTile d = .ok (r, b') ∧ b'.tiles.Perm b.tiles := by
  obtain ⟨ce, nd, _, _, _, _, _, hcase⟩ := moveTile_cases b d h hd
  rcases hcase with ⟨_, hm'⟩ | ⟨ca, _, hm'⟩
  · exact ⟨false, b, hm', List.Perm.refl _⟩
  · exact ⟨true, _, hm', tiles_swapCells_perm b ca ce⟩

theorem swapTiles_ok (b : Board) {p q : Point} (hp : isValidTilePos p = true)
    (hq : isValidTilePos q = true) :
    ∃ b', b.swapTiles p q = .ok b' ∧ b'.tiles.Perm b.tiles := by
  obtain ⟨cp, rfl⟩ := exists_cell_of_isValidTilePos hp
  obtain ⟨cq, rfl⟩ := exists_cell_of_isValidTilePos hq
  exact ⟨_, swapTiles_cellPoint b cp cq, tiles_swapCells_perm b cp cq⟩

theorem applyOp_ok (b : Board) (op : Op) (h : 0 < b.emptyCount) (hop : op.inBounds) :
    ∃ b', b.applyOp op = .ok b' ∧ b'.tiles.Perm b.tiles := by
  cases op with
  | move d =>
    obtain ⟨r, b', hm, hp⟩ := moveTile_ok b d h hop
    exact ⟨b', by simp [applyOp, hm], hp⟩
  | swap p q =>
    exact swapTiles_ok b hop.1 hop.2

theorem emptyCount_of_perm {b b' : Board} (h : b'.tiles.Perm b.tiles) :
    b'.emptyCount = b.emptyCount :=
  h.countP_eq _

theorem applyOps_ok (ops : List Op) :
    ∀ b : Board, 0 < b.emptyCount → (∀ op ∈ ops, op.inBounds) →
      ∃ b', b.applyOps ops = .ok b' ∧ b'.tiles.Perm b.tiles := by
  induction ops with
  | nil => intro b _ _; exact ⟨b, rfl, List.Perm.refl _⟩
  | cons op ops ih =>
    intro b h hops
    obtain ⟨b1, h1, p1⟩ := applyOp_ok b op h (hops op (List.mem_cons_self _ _))
    obtain ⟨b2, h2, p2⟩ := ih b1 (by rw [emptyCount_of_perm p1]; exact h)
      (fun o ho => hops o (List.mem_cons_of_mem _ ho))
    exact ⟨b2, by simp [applyOps, h1, h2], p2.trans p1⟩

/-- C5: the freshly constructed board has exactly one cell with value 0; on a
board with exactly one such cell, `moveTile(d)` for any of the four directions
(accepted or rejected) and `swapTiles` on any two points inside the grid return
a board that again has exactly one, and so does any finite sequence of such
calls. -/
theorem C5_exactly_one_empty :
    Board.new.cells.count 0 = 1 ∧ Board.new.emptyCount = 1 ∧
    (∀ (b : Board) (d : Direction), b.emptyCount = 1 → d ≠ Direction.max_direction →
      ∃ r b', b.moveTile d = .ok (r, b') ∧ b'.emptyCount = 1) ∧
    (∀ (b : Board) (p q : Point), b.emptyCount = 1 → isValidTilePos p = true →
      isValidTilePos q = true → ∃ b', b.swapTiles p q = .ok b' ∧ b'.emptyCount = 1) ∧
    (∀ (b : Board) (ops : List Op), b.emptyCount = 1 → (∀ op ∈ ops, op.inBounds) →
      ∃ b', b.applyOps ops = .ok b' ∧ b'.emptyCount = 1) := by
  refine ⟨by decide, by decide, ?_, ?_, ?_⟩
  · intro b d h hd
    obtain ⟨r, b', hm, hp⟩ := moveTile_ok b d (by omega) hd
    exact ⟨r, b', hm, by rw [emptyCount_of_perm hp]; exact h⟩
  · intro b p q h hp hq
    obtain ⟨b', hm, hperm⟩ := swapTiles_ok b hp hq
    exact ⟨b', hm, by rw [emptyCount_of_perm hperm]; exact h⟩
  · intro b ops h hops
    obtain ⟨b', hm, hperm⟩ := applyOps_ok ops b (by omega) hops
    exact ⟨b', hm, by rw [emptyCount_of_perm hperm]; exact h⟩

/-- Witness of C5: from the fresh board, the calls `moveTile(down)`,
`swapTiles((0,0), (3,2))`, `moveTile(up)` in sequence. -/
theorem C5_exactly_one_empty_witness :
    Board.new.emptyCount = 1 ∧
    (∀ op ∈ [Op.move Direction.down, Op.swap { x := 0, y := 0 } { x := 3, y := 2 },
        Op.move Direction.up], op.inBounds) ∧
    ∃ b', Board.new.applyOps [Op.move Direction.down,
        Op.swap { x := 0, y := 0 } { x := 3, y := 2 }, Op.move Direction.up] = .ok b' ∧
      b'.emptyCount = 1 :=
  have hops : ∀ op ∈ [Op.move Direction.down, Op.swap { x := 0, y := 0 } { x := 3, y := 2 },
      Op.move Direction.up], op.inBounds := by
    intro op hop
    simp only [List.mem_cons, List.mem_singleton, List.not_mem_nil, or_false] at hop
    rcases hop with rfl | rfl | rfl
    · exact Direction.noConfusion
    · exact ⟨by decide, by decide⟩
    · exact Direction.noConfusion
  ⟨by decide, hops, C5_exactly_one_empty.2.2.2.2 Board.new _ (by decide) hops⟩

theorem cells_perm_of_tiles_perm {b b' : Board} (h : b'.tiles.Perm b.tiles) :
    b'.cells.Perm b.cells :=
  h.map _

theorem moves_ok (ds : List Direction) :
    ∀ b : Board, 0 < b.emptyCount → (∀ d ∈ ds, d ≠ Direction.max_direction) →
      ∃ b', b.moves ds = .ok b' ∧ b'.tiles.Perm b.tiles := by
  induction ds with
  | nil => intro b _ _; exact ⟨b, rfl, List.Perm.refl _⟩
  | cons d ds ih =>
    intro b h hds
    obtain ⟨r, b1, h1, p1⟩ := moveTile_ok b d h (hds d (List.mem_cons_self _ _))
    obtain ⟨b2, h2, p2⟩ := ih b1 (by rw [emptyCount_of_perm p1]; exact h)
      (fun o ho => hds o (List.mem_cons_of_mem _ ho))
    exact ⟨b2, by simp [moves, h1, h2], p2.trans p1⟩

theorem count_new_cells (v : Int) (h0 : 0 ≤ v) (h15 : v ≤ 15) : Board.new.cells.count v = 1 := by
  interval_cases v <;> decide

/-- C6: on a board that contains an empty tile, `moveTile(d)` for any of the
four directions returns a board whose multiset of 16 tile values is that of the
board before the call; and every board reached from the fresh (solved) board by
successive `moveTile` calls has 16 cells and holds each of the values `0 .. 15`
exactly once. -/
theorem C6_moveTile_keeps_multiset :
    (∀ (b : Board) (d : Direction), 0 < b.emptyCount → d ≠ Direction.max_direction →
      ∃ r b', b.moveTile d = .ok (r, b') ∧
        (b'.cells : Multiset Int) = (b.cells : Multiset Int)) ∧
    (∀ ds : List Direction, (∀ d ∈ ds, d ≠ Direction.max_direction) →
      ∃ b', Board.new.moves ds = .ok b' ∧ b'.cells.length = 16 ∧
        ∀ v : Int, 0 ≤ v → v ≤ 15 → b'.cells.count v = 1) := by
  constructor
  · intro b d h hd
    obtain ⟨r, b', hm, hp⟩ := moveTile_ok b d h hd
    exact ⟨r, b', hm, Quotient.sound (cells_perm_of_tiles_perm hp)⟩
  · intro ds hds
    obtain ⟨b', hm, hp⟩ := moves_ok ds Board.new (by decide) hds
    have hc := cells_perm_of_tiles_perm hp
    refine ⟨b', hm, by rw [hc.length_eq]; rfl, fun v h0 h15 => ?_⟩
    rw [hc.count_eq]
    exact count_new_cells v h0 h15

/-- Witness of C6: the fresh board and `down`. -/
theorem C6_moveTile_keeps_multiset_witness :
    0 < Board.new.emptyCount ∧ Direction.down ≠ Direction.max_direction ∧
    ∃ r b', Board.new.moveTile Direction.down = .ok (r, b') ∧
      (b'.cells : Multiset Int) = (Board.new.cells : Multiset Int) :=
  ⟨by decide, by decide,
    C6_moveTile_keeps_multiset.1 Board.new Direction.down (by decide) (by decide)⟩


/-! ## Undoing a move -/

theorem eq_self (b : Board) : b.eq b = true := by
  simp [eq]

/-- An accepted move is undone by the move in the inverted direction. -/
theorem moveTile_undo {b b' : Board} {d : Direction} (h1 : b.emptyCount = 1)
    (hm : b.moveTile d = .ok (true, b')) :
    ∃ nd, d.neg = .ok nd ∧ b'.emptyCount = 1 ∧ b'.moveTile nd = .ok (true, b) := by
  have hd : d ≠ Direction.max_direction := by
    rintro rfl
    cases hg : b.getEmptyTilePos <;>
      simp [moveTile, hg, Direction.neg, bind, Except.bind] at hm
  obtain ⟨ce, nd, he, hce, hn, hnd, hnn, hcase⟩ := moveTile_cases b d (by omega) hd
  rcases hcase with ⟨_, hm'⟩ | ⟨ca, hca, hm'⟩
  · rw [hm'] at hm; cases hm
  · rw [hm'] at hm
    cases hm
    have hc : (b.swapCells ca ce).emptyCount = 1 := by rw [emptyCount_swapCells]; exact h1
    have he' : (b.swapCells ca ce).getEmptyTilePos = .ok (cellPoint ca) :=
      getEmptyTilePos_eq_of_unique hc (by rw [swapCells_apply_left]; exact hce)
    have hback : (cellPoint ca).getAdjacentPoint d = cellPoint ce := by
      rw [← hca]; exact getAdjacentPoint_neg hn
    refine ⟨nd, hn, hc, ?_⟩
    rw [moveTile_accepted he' hnn hback, swapCells_swapCells]

/-- C7: on a board `b` with exactly one empty tile, if `moveTile(d)` is accepted
and gives `b'`, then `-d` is a direction, `moveTile(-d)` is accepted on `b'`, and
the board it gives is equal to `b` under `operator==` (and is `b` cell by
cell). -/
theorem C7_move_round_trip (b b' : Board) (d : Direction) (h1 : b.emptyCount = 1)
    (hm : b.moveTile d = .ok (true, b')) :
    ∃ nd b'', d.neg = .ok nd ∧ b'.moveTile nd = .ok (true, b'') ∧ b''.eq b = true ∧ b'' = b := by
  obtain ⟨nd, hn, _, hback⟩ := moveTile_undo h1 hm
  exact ⟨nd, b, hn, hback, eq_self b, rfl⟩

/-- Witness of C7: the fresh board, `down`, then `up`. -/
theorem C7_move_round_trip_witness :
    Board.new.emptyCount = 1 ∧
    Board.new.moveTile Direction.down = .ok (true, Board.new.swapCells (2, 3) (3, 3)) ∧
    ∃ nd b'', Direction.down.neg = .ok nd ∧
      (Board.new.swapCells (2, 3) (3, 3)).moveTile nd = .ok (true, b'') ∧
      b''.eq Board.new = true ∧ b'' = Board.new :=
  have he : Board.new.getEmptyTilePos = .ok (cellPoint (3, 3)) := by decide
  have hm : Board.new.moveTile Direction.down = .ok (true, Board.new.swapCells (2, 3) (3, 3)) :=
    moveTile_accepted he rfl (by decide)
  ⟨by decide, hm, C7_move_round_trip Board.new _ Direction.down (by decide) hm⟩

/-! ## `randomize` -/

theorem moves_append (ds es : List Direction) :
    ∀ (b b1 : Board), b.moves ds = .ok b1 → b.moves (ds ++ es) = b1.moves es := by
  induction ds with
  | nil => intro b b1 h; cases h; rfl
  | cons d ds ih =>
    intro b b1 h
    simp only [moves, List.cons_append] at h ⊢
    cases hm : b.moveTile d with
    | error f => rw [hm] at h; cases h
    | ok rb =>
      obtain ⟨r, b2⟩ := rb
      rw [hm] at h
      simp only at h ⊢
      exact ih b2 b1 h

theorem moveTile_max_direction (b : Board) (rb : Bool × Board) :
    b.moveTile Direction.max_direction ≠ .ok rb := by
  intro hm
  cases hg : b.getEmptyTilePos <;>
    simp [moveTile, hg, Direction.neg, bind, Except.bind] at hm

/-- From the board the loop of `randomize` ends with, a sequence of `moveTile`
calls leads back to the board the loop started from. -/
theorem randomizeLoop_returns (draws : List Int) :
    ∀ (count : Int) (b B : Board) (rest : List Int), b.emptyCount = 1 →
      randomizeLoop count draws b = .ok (some (B, rest)) →
      ∃ ds : List Direction, B.moves ds = .ok b := by
  induction draws with
  | nil =>
    intro count b B rest _ h
    unfold randomizeLoop at h
    split at h
    · cases h
    · cases h; exact ⟨[], rfl⟩
  | cons r draws ih =>
    intro count b B rest h1 h
    unfold randomizeLoop at h
    split at h
    · cases hm : b.moveTile (Direction.randomDirection r) with
      | error f => rw [hm] at h; cases h
      | ok rb =>
        obtain ⟨s, b1⟩ := rb
        rw [hm] at h
        simp only at h
        cases s with
        | false =>
          have hd : Direction.randomDirection r ≠ Direction.max_direction := by
            intro hd; rw [hd] at hm; exact moveTile_max_direction b _ hm
          obtain ⟨ce, nd, _, _, _, _, _, hcase⟩ := moveTile_cases b _ (by omega) hd
          rcases hcase with ⟨_, hm'⟩ | ⟨ca, _, hm'⟩
          · rw [hm] at hm'
            cases hm'
            exact ih _ b B rest h1 h
          · rw [hm] at hm'; cases hm'
        | true =>
          obtain ⟨nd, _, hc, hback⟩ := moveTile_undo h1 hm
          obtain ⟨ds, hds⟩ := ih _ b1 B rest hc h
          refine ⟨ds ++ [nd], ?_⟩
          rw [moves_append ds [nd] B b1 hds]
          simp [moves, hback]
    · cases h; exact ⟨[], rfl⟩

/-- C8: for every sequence of draws on which `randomize()`, started from the
solved board, completes with result `B`, there is a finite list of directions
whose successive `moveTile` calls, applied to `B`, produce a board on which
`playerWon()` is true. -/
theorem C8_randomize_solvable (draws rest : List Int) (B : Board)
    (h : Board.new.randomize draws = .ok (some (B, rest))) :
    ∃ (ds : List Direction) (b' : Board), B.moves ds = .ok b' ∧ b'.playerWon = true := by
  obtain ⟨ds, hds⟩ := randomizeLoop_returns draws 0 Board.new B rest (by decide) h
  exact ⟨ds, Board.new, hds, eq_self _⟩


theorem randomizeLoop_done {count : Int} (h : ¬ count < 1000) (draws : List Int) (b : Board) :
    randomizeLoop count draws b = .ok (some (b, draws)) := by
  cases draws <;> simp [randomizeLoop, h]

theorem randomizeLoop_step {count : Int} (h : count < 1000) (r : Int) (draws : List Int)
    {b b' : Board} {s : Bool} (hm : b.moveTile (Direction.randomDirection r) = .ok (s, b')) :
    randomizeLoop count (r :: draws) b =
      randomizeLoop (if s then count + 1 else count) draws b' := by
  cases s <;> simp [randomizeLoop, h, hm]

/-- Draws `1, 0` repeated: when the first is accepted on `b` and the second
leads back to `b`, the loop of `randomize` consumes `n` such pairs from
`count = 1000 - 2 n` on and ends on `b`. -/
theorem randomizeLoop_pairs {b b1 : Board}
    (h1 : b.moveTile (Direction.randomDirection 1) = .ok (true, b1))
    (h2 : b1.moveTile (Direction.randomDirection 0) = .ok (true, b)) (rest : List Int) :
    ∀ (n : Nat) (count : Int), count + 2 * (n : Int) = 1000 →
      randomizeLoop count ((List.replicate n [1, 0]).flatten ++ rest) b = .ok (some (b, rest)) := by
  intro n
  induction n with
  | zero =>
    intro count hc
    exact randomizeLoop_done (by omega) _ _
  | succ n ih =>
    intro count hc
    have e : (List.replicate (n + 1) [(1 : Int), 0]).flatten ++ rest
        = 1 :: 0 :: ((List.replicate n [(1 : Int), 0]).flatten ++ rest) := by
      simp [List.replicate_succ]
    rw [e, randomizeLoop_step (by omega) 1 _ h1]
    simp only [if_true]
    rw [randomizeLoop_step (by omega) 0 _ h2]
    simp only [if_true]
    exact ih _ (by push_cast at hc ⊢; omega)

theorem new_moveTile_down :
    Board.new.moveTile (Direction.randomDirection 1)
      = .ok (true, Board.new.swapCells (2, 3) (3, 3)) :=
  moveTile_accepted (show Board.new.getEmptyTilePos = .ok (cellPoint (3, 3)) by decide) rfl
    (by decide)

theorem new_moveTile_down_up :
    (Board.new.swapCells (2, 3) (3, 3)).moveTile (Direction.randomDirection 0)
      = .ok (true, Board.new) := by
  obtain ⟨nd, hn, _, hback⟩ := moveTile_undo (by decide) new_moveTile_down
  cases hn
  exact hback

/-- A run of `randomize` that completes: 500 times the draws `1, 0`
(`down`, `up`) from the fresh board, ending on the fresh board. -/
theorem randomize_down_up :
    Board.new.randomize (List.replicate 500 [1, 0]).flatten = .ok (some (Board.new, [])) := by
  have h := randomizeLoop_pairs new_moveTile_down new_moveTile_down_up [] 500 0 (by norm_num)
  rwa [List.append_nil] at h

/-- The draws the loop of `randomize` consumes, the flags of the `moveTile`
calls made on them, and the board they lead to. -/
theorem randomizeLoop_trace (draws : List Int) :
    ∀ (count : Int) (b B : Board) (rest : List Int), count < 1000 →
      randomizeLoop count draws b = .ok (some (B, rest)) →
      ∃ (used : List Int) (flags : List Bool), draws = used ++ rest ∧
        b.moveFlags (used.map Direction.randomDirection) = .ok flags ∧
        (flags.count true : Int) = 1000 - count ∧
        flags.getLast? = some true ∧
        b.moves (used.map Direction.randomDirection) = .ok B := by
  induction draws with
  | nil =>
    intro count b B rest hc h
    simp [randomizeLoop, hc] at h
  | cons r draws ih =>
    intro count b B rest hc h
    cases hm : b.moveTile (Direction.randomDirection r) with
    | error f => simp [randomizeLoop, hc, hm] at h
    | ok rb =>
      obtain ⟨s, b1⟩ := rb
      rw [randomizeLoop_step hc r draws hm] at h
      cases s with
      | false =>
        simp only [Bool.false_eq_true, if_false] at h
        obtain ⟨used, flags, hu, hf, hn, hl, hB⟩ := ih count b1 B rest hc h
        refine ⟨r :: used, false :: flags, by rw [hu]; rfl, by simp [moveFlags, hm, hf], ?_, ?_,
          by simp [moves, hm, hB]⟩
        · simpa using hn
        · cases flags with
          | nil => simp at hl
          | cons f fs => simpa [List.getLast?_cons_cons] using hl
      | true =>
        simp only [if_true] at h
        by_cases hlt : count + 1 < 1000
        · obtain ⟨used, flags, hu, hf, hn, hl, hB⟩ := ih (count + 1) b1 B rest hlt h
          refine ⟨r :: used, true :: flags, by rw [hu]; rfl, by simp [moveFlags, hm, hf], ?_, ?_,
            by simp [moves, hm, hB]⟩
          · rw [List.count_cons_self]; push_cast; omega
          · cases flags with
            | nil => simp at hl
            | cons f fs => simpa [List.getLast?_cons_cons] using hl
        · rw [randomizeLoop_done hlt] at h
          cases h
          refine ⟨[r], [true], rfl, by simp [moveFlags, hm], ?_, rfl, by simp [moves, hm]⟩
          simp; omega

/-- Witness of C8: 500 times the draws `1, 0` (`down`, `up`). -/
theorem C8_randomize_solvable_witness :
    Board.new.randomize (List.replicate 500 [1, 0]).flatten = .ok (some (Board.new, [])) ∧
    ∃ (ds : List Direction) (b' : Board), Board.new.moves ds = .ok b' ∧ b'.playerWon = true :=
  ⟨randomize_down_up, C8_randomize_solvable _ [] Board.new randomize_down_up⟩

/-- C9: with the random source an explicit sequence of draws, whenever
`randomize()` completes (on any board, in particular one with exactly one empty
tile), leaving `rest` unread, the draws it consumed are the part `used` of the
sequence before `rest`; among the `moveTile` calls on the drawn directions
exactly 1000 returned true, the call on the last consumed draw returned true,
and the resulting board is the one obtained by applying `moveTile` in order to
every consumed draw. -/
theorem C9_randomize_thousand_accepted (draws rest : List Int) (b B : Board)
    (h : b.randomize draws = .ok (some (B, rest))) :
    ∃ (used : List Int) (flags : List Bool), draws = used ++ rest ∧
      b.moveFlags (used.map Direction.randomDirection) = .ok flags ∧
      flags.count true = 1000 ∧ flags.getLast? = some true ∧
      b.moves (used.map Direction.randomDirection) = .ok B := by
  obtain ⟨used, flags, hu, hf, hn, hl, hB⟩ :=
    randomizeLoop_trace draws 0 b B rest (by norm_num) h
  exact ⟨used, flags, hu, hf, by omega, hl, hB⟩

/-- Witness of C9: 500 times the draws `1, 0` from the fresh board. -/
theorem C9_randomize_thousand_accepted_witness :
    Board.new.emptyCount = 1 ∧
    Board.new.randomize (List.replicate 500 [1, 0]).flatten = .ok (some (Board.new, [])) ∧
    ∃ (used : List Int) (flags : List Bool),
      (List.replicate 500 [1, 0]).flatten = used ++ [] ∧
      Board.new.moveFlags (used.map Direction.randomDirection) = .ok flags ∧
      flags.count true = 1000 ∧ flags.getLast? = some true ∧
      Board.new.moves (used.map Direction.randomDirection) = .ok Board.new :=
  ⟨by decide, randomize_down_up,
    C9_randomize_thousand_accepted _ [] Board.new Board.new randomize_down_up⟩

/-! ## `playerWon` -/

theorem eq_iff_cells (b1 b2 : Board) : b1.eq b2 = true ↔ b1.cells = b2.cells := by
  simp only [eq, cells, tiles, List.all_eq_true, beq_iff_eq, List.map_map, List.map_inj_left,
    Function.comp_apply]

/-- C10: `playerWon()` returns true if and only if the 16 cells of the board,
read in row-major order, are `1, 2, ..., 15` followed by `0`; and it is true on
the freshly constructed board. -/
theorem C10_playerWon_iff_solved :
    (∀ b : Board, b.playerWon = true ↔
      b.cells = [1, 2, 3, 4, 5, 6, 7, 8, 9, 10, 11, 12, 13, 14, 15, 0]) ∧
    Board.new.playerWon = true := by
  refine ⟨fun b => ?_, by decide⟩
  rw [playerWon, eq_iff_cells]
  rfl

end Board

end Puzzle15

namespace Puzzle15

/-! ## Directions and points -/

/-- C11: for each of the four directions `d`, the inversion `-d` does not reach
the assertion and gives one of the four directions again (`up` and `down`
exchanged, `left` and `right` exchanged), and inverting that gives `d` back. -/
theorem C11_neg_neg (d : Direction) (hd : d ≠ Direction.max_direction) :
    ∃ nd, d.neg = .ok nd ∧ nd ≠ Direction.max_direction ∧ nd ≠ d ∧ nd.neg = .ok d ∧
      (d = Direction.up ↔ nd = Direction.down) ∧ (d = Direction.down ↔ nd = Direction.up) ∧
      (d = Direction.left ↔ nd = Direction.right) ∧
      (d = Direction.right ↔ nd = Direction.left) := by
  cases d <;> first | exact absurd rfl hd | exact ⟨_, rfl, by decide⟩

/-- Witness of C11: `left`. -/
theorem C11_neg_neg_witness :
    Direction.left ≠ Direction.max_direction ∧
    ∃ nd, Direction.left.neg = .ok nd ∧ nd ≠ Direction.max_direction ∧ nd ≠ Direction.left ∧
      nd.neg = .ok Direction.left ∧
      (Direction.left = Direction.up ↔ nd = Direction.down) ∧
      (Direction.left = Direction.down ↔ nd = Direction.up) ∧
      (Direction.left = Direction.left ↔ nd = Direction.right) ∧
      (Direction.left = Direction.right ↔ nd = Direction.left) :=
  ⟨by decide, C11_neg_neg Direction.left (by decide)⟩

theorem wrapInt_of_isInt {v : Int} (h : isInt v) : wrapInt v = v := by
  unfold isInt at h
  unfold wrapInt
  omega

theorem wrapInt_add_sub {v : Int} (h : isInt v) : wrapInt (wrapInt (v + 1) - 1) = v := by
  unfold isInt at h
  unfold wrapInt
  omega

theorem wrapInt_sub_add {v : Int} (h : isInt v) : wrapInt (wrapInt (v - 1) + 1) = v := by
  unfold isInt at h
  unfold wrapInt
  omega

/-- C12: for every point `p` and each of the four directions `d`,
`p.getAdjacentPoint(-d).getAdjacentPoint(d)` is `p`: for all integer
coordinates with exact arithmetic, and for all 32-bit `int` coordinates with
wrap-around arithmetic, the limits of `int` included. -/
theorem C12_adjacent_round_trip (p : Point) (d : Direction) (hd : d ≠ Direction.max_direction) :
    ∃ nd, d.neg = .ok nd ∧ (p.getAdjacentPoint nd).getAdjacentPoint d = p ∧
      (isInt p.x → isInt p.y → (p.getAdjacentPointInt32 nd).getAdjacentPointInt32 d = p) := by
  cases p with
  | mk x y =>
    have e : ∀ q r : Point, q.x = r.x → q.y = r.y → q = r := by
      intro q r h1 h2; cases q; cases r; simp_all
    cases d with
    | max_direction => exact absurd rfl hd
    | up =>
      exact ⟨_, rfl, by simp [Point.getAdjacentPoint],
        fun _ hy => e _ _ rfl (wrapInt_add_sub hy)⟩
    | down =>
      exact ⟨_, rfl, by simp [Point.getAdjacentPoint],
        fun _ hy => e _ _ rfl (wrapInt_sub_add hy)⟩
    | left =>
      exact ⟨_, rfl, by simp [Point.getAdjacentPoint],
        fun hx _ => e _ _ (wrapInt_add_sub hx) rfl⟩
    | right =>
      exact ⟨_, rfl, by simp [Point.getAdjacentPoint],
        fun hx _ => e _ _ (wrapInt_sub_add hx) rfl⟩

/-- Witness of C12: a point outside the grid, at the upper limit of `int`. -/
theorem C12_adjacent_round_trip_witness :
    Direction.left ≠ Direction.max_direction ∧
    ∃ nd, Direction.left.neg = .ok nd ∧
      (Point.getAdjacentPoint (Point.getAdjacentPoint { x := 2147483647, y := -7 } nd)
        Direction.left = { x := 2147483647, y := -7 }) ∧
      (isInt (Point.mk 2147483647 (-7)).x → isInt (Point.mk 2147483647 (-7)).y →
        Point.getAdjacentPointInt32 (Point.getAdjacentPointInt32 { x := 2147483647, y := -7 } nd)
          Direction.left = { x := 2147483647, y := -7 }) :=
  ⟨by decide, C12_adjacent_round_trip { x := 2147483647, y := -7 } Direction.left (by decide)⟩

namespace Board

/-! ## The position of the empty tile -/

theorem cellOrder_sorted :
    cellOrder.Pairwise (fun c' c => c'.1 < c.1 ∨ (c'.1 = c.1 ∧ c'.2 < c.2)) := by
  decide

theorem find_first {b : Board} {c : Fin 4 × Fin 4}
    (hf : cellOrder.find? (fun c => (b.m_tiles c.1 c.2).isEmpty) = some c)
    (c' : Fin 4 × Fin 4) (h : c'.1 < c.1 ∨ (c'.1 = c.1 ∧ c'.2 < c.2)) :
    (b.m_tiles c'.1 c'.2).isEmpty = false := by
  rw [List.find?_eq_some] at hf
  obtain ⟨_, as, bs, hl, has⟩ := hf
  have hs := cellOrder_sorted
  rw [hl, List.pairwise_append] at hs
  obtain ⟨_, hcbs, _⟩ := hs
  rw [List.pairwise_cons] at hcbs
  have hm : c' ∈ as ++ c :: bs := hl ▸ mem_cellOrder c'
  rcases List.mem_append.1 hm with h1 | h2
  · simpa using has c' h1
  · rcases List.mem_cons.1 h2 with h3 | h4
    · subst h3; omega
    · have := hcbs.1 c' h4
      omega

/-- C13: on a board with at least one empty tile, `getEmptyTilePos()` does not
reach the assertion; the point `(x, y)` it returns is inside the grid, the
cell `[y][x]` is empty, and no cell earlier in row-major order is empty; when
the board has exactly one empty tile, that cell is the only empty one. -/
theorem C13_getEmptyTilePos_first_empty (b : Board) (h : 0 < b.emptyCount) :
    ∃ c : Fin 4 × Fin 4, b.getEmptyTilePos = .ok { x := (c.2.val : Int), y := (c.1.val : Int) } ∧
      isValidTilePos { x := (c.2.val : Int), y := (c.1.val : Int) } = true ∧
      (b.m_tiles c.1 c.2).isEmpty = true ∧
      (∀ c' : Fin 4 × Fin 4, (c'.1 < c.1 ∨ (c'.1 = c.1 ∧ c'.2 < c.2)) →
        (b.m_tiles c'.1 c'.2).isEmpty = false) ∧
      (b.emptyCount = 1 → ∀ c' : Fin 4 × Fin 4, (b.m_tiles c'.1 c'.2).isEmpty = true → c' = c) := by
  rw [emptyCount_eq, List.countP_pos_iff] at h
  obtain ⟨a, ha, hpa⟩ := h
  cases hf : cellOrder.find? (fun c => (b.m_tiles c.1 c.2).isEmpty) with
  | none =>
    rw [List.find?_eq_none] at hf
    exact absurd hpa (hf a ha)
  | some c =>
    have hc : (b.m_tiles c.1 c.2).isEmpty = true := by simpa using List.find?_some hf
    exact ⟨c, getEmptyTilePos_of_find hf, isValidTilePos_cellPoint c, hc, find_first hf,
      fun h1 c' hc' => empty_unique h1 hc' hc⟩

/-- Witness of C13: the fresh board. -/
theorem C13_getEmptyTilePos_first_empty_witness :
    0 < Board.new.emptyCount ∧
    ∃ c : Fin 4 × Fin 4,
      Board.new.getEmptyTilePos = .ok { x := (c.2.val : Int), y := (c.1.val : Int) } ∧
      isValidTilePos { x := (c.2.val : Int), y := (c.1.val : Int) } = true ∧
      (Board.new.m_tiles c.1 c.2).isEmpty = true ∧
      (∀ c' : Fin 4 × Fin 4, (c'.1 < c.1 ∨ (c'.1 = c.1 ∧ c'.2 < c.2)) →
        (Board.new.m_tiles c'.1 c'.2).isEmpty = false) ∧
      (Board.new.emptyCount = 1 →
        ∀ c' : Fin 4 × Fin 4, (Board.new.m_tiles c'.1 c'.2).isEmpty = true → c' = c) :=
  ⟨by decide, C13_getEmptyTilePos_first_empty Board.new (by decide)⟩

end Board

end Puzzle15

namespace Puzzle15

namespace UserInput

/-! ## Commands -/

theorem getCommandLoop_of_valid {ch : Char} (h : isValidCommand ch = true) (input : List Char) :
    getCommandLoop ch input = some (ch, input) := by
  cases input <;> simp [getCommandLoop, h]

theorem getCommandLoop_cons {ch : Char} (h : isValidCommand ch = false) (c : Char)
    (rest : List Char) : getCommandLoop ch (c :: rest) = getCommandLoop c rest := by
  simp [getCommandLoop, h]

theorem getCommandLoop_first_valid (input : List Char) :
    ∀ ch, isValidCommand ch = false → (∃ a ∈ input, isValidCommand a = true) →
      ∃ pre c rest, input = pre ++ c :: rest ∧ (∀ a ∈ pre, isValidCommand a = false) ∧
        isValidCommand c = true ∧ getCommandLoop ch input = some (c, rest) := by
  induction input with
  | nil => intro ch _ h; obtain ⟨a, ha, _⟩ := h; cases ha
  | cons a as ih =>
    intro ch hch h
    rw [getCommandLoop_cons hch]
    cases hv : isValidCommand a with
    | true =>
      exact ⟨[], a, as, rfl, fun x hx => absurd hx (List.not_mem_nil x), hv,
        getCommandLoop_of_valid hv as⟩
    | false =>
      have h' : ∃ x ∈ as, isValidCommand x = true := by
        obtain ⟨x, hx, hxv⟩ := h
        rcases List.mem_cons.1 hx with rfl | hx'
        · rw [hv] at hxv; cases hxv
        · exact ⟨x, hx', hxv⟩
      obtain ⟨pre, c, rest, he, hpre, hc, hl⟩ := ih a hv h'
      refine ⟨a :: pre, c, rest, by rw [he]; rfl, ?_, hc, hl⟩
      intro x hx
      rcases List.mem_cons.1 hx with rfl | hx'
      · exact hv
      · exact hpre x hx'

/-- C14: with the console input the sequence of characters successive
`getCharacter()` calls return, for every sequence that contains a character
of `w, a, s, d, q`, `getCommandFromUser()` returns the first character of the
sequence that satisfies `isValidCommand`, having consumed exactly the invalid
characters before it and that character; reads `x` then `d` return `d`, which
`charToDirection` maps to `right`, and a single read `w` returns `w`, mapped to
`up`. -/
theorem C14_getCommandFromUser_first_valid :
    (∀ input : List Char, (∃ a ∈ input, isValidCommand a = true) →
      ∃ pre c rest, input = pre ++ c :: rest ∧ (∀ a ∈ pre, isValidCommand a = false) ∧
        isValidCommand c = true ∧ getCommandFromUser input = some (c, rest)) ∧
    getCommandFromUser ['x', 'd'] = some ('d', []) ∧
    charToDirection 'd' = .ok Direction.right ∧
    getCommandFromUser ['w'] = some ('w', []) ∧
    charToDirection 'w' = .ok Direction.up := by
  refine ⟨fun input h => ?_, by decide, by decide, by decide, by decide⟩
  exact getCommandLoop_first_valid input (Char.ofNat 0) (by decide) h

/-- Witness of C14: the reads `x`, `y`, `s`, `z`. -/
theorem C14_getCommandFromUser_first_valid_witness :
    (∃ a ∈ ['x', 'y', 's', 'z'], isValidCommand a = true) ∧
    ∃ pre c rest, ['x', 'y', 's', 'z'] = pre ++ c :: rest ∧
      (∀ a ∈ pre, isValidCommand a = false) ∧
      isValidCommand c = true ∧ getCommandFromUser ['x', 'y', 's', 'z'] = some (c, rest) :=
  have h : ∃ a ∈ ['x', 'y', 's', 'z'], isValidCommand a = true :=
    ⟨'s', by decide, by decide⟩
  ⟨h, C14_getCommandFromUser_first_valid.1 _ h⟩

theorem isValidCommand_iff (c : Char) :
    isValidCommand c = true ↔ c = 'w' ∨ c = 'a' ∨ c = 's' ∨ c = 'd' ∨ c = 'q' := by
  simp [isValidCommand, or_assoc]

/-- C15: for every character `c` with `isValidCommand(c)` true and `c != 'q'`,
`charToDirection(c)` does not reach the assertion and returns one of the four
directions: `up` for `w`, `down` for `s`, `left` for `a`, `right` for `d`; for
every other character, `q` included, it reaches the assertion. -/
theorem C15_charToDirection :
    (∀ c : Char, isValidCommand c = true → c ≠ 'q' →
      ∃ d, charToDirection c = .ok d ∧ d ≠ Direction.max_direction) ∧
    charToDirection 'w' = .ok Direction.up ∧
    charToDirection 's' = .ok Direction.down ∧
    charToDirection 'a' = .ok Direction.left ∧
    charToDirection 'd' = .ok Direction.right ∧
    charToDirection 'q' = .error Fault.invalidInput ∧
    (∀ c : Char, ¬ (isValidCommand c = true ∧ c ≠ 'q') →
      charToDirection c = .error Fault.invalidInput) := by
  refine ⟨?_, by decide, by decide, by decide, by decide, by decide, ?_⟩
  · intro c hc hq
    rw [isValidCommand_iff] at hc
    rcases hc with rfl | rfl | rfl | rfl | rfl
    · exact ⟨Direction.up, by decide, by decide⟩
    · exact ⟨Direction.left, by decide, by decide⟩
    · exact ⟨Direction.down, by decide, by decide⟩
    · exact ⟨Direction.right, by decide, by decide⟩
    · exact absurd rfl hq
  · intro c hc
    rw [isValidCommand_iff] at hc
    by_cases hq : c = 'q'
    · subst hq; decide
    · have hw : c ≠ 'w' := fun h => hc ⟨Or.inl h, hq⟩
      have ha : c ≠ 'a' := fun h => hc ⟨Or.inr (Or.inl h), hq⟩
      have hs : c ≠ 's' := fun h => hc ⟨Or.inr (Or.inr (Or.inl h)), hq⟩
      have hd : c ≠ 'd' := fun h => hc ⟨Or.inr (Or.inr (Or.inr (Or.inl h))), hq⟩
      simp [charToDirection, hw, ha, hs, hd]

/-- Witness of C15: the character `a`, and the character `x`. -/
theorem C15_charToDirection_witness :
    (isValidCommand 'a' = true ∧ 'a' ≠ 'q' ∧
      ∃ d, charToDirection 'a' = .ok d ∧ d ≠ Direction.max_direction) ∧
    (¬ (isValidCommand 'x' = true ∧ 'x' ≠ 'q') ∧
      charToDirection 'x' = .error Fault.invalidInput) :=
  ⟨⟨by decide, by decide, C15_charToDirection.1 'a' (by decide) (by decide)⟩,
    ⟨by decide, C15_charToDirection.2.2.2.2.2.2 'x' (by decide)⟩⟩

end UserInput

/-! ## Rendering -/

theorem tile_output_cases (n : Int) (h0 : 0 ≤ n) (h15 : n ≤ 15) :
    (Tile.mk n).output.length = 4 ∧ (Char.ofNat 10) ∉ (Tile.mk n).output.data ∧
    (n = 0 → (Tile.mk n).output = "    ") ∧
    (1 ≤ n → n ≤ 9 →
      (Tile.mk n).output = "  " ++ intText n ++ " " ∧ (intText n).length = 1) ∧
    (10 ≤ n → (Tile.mk n).output = " " ++ intText n ++ " " ∧ (intText n).length = 2) := by
  interval_cases n <;> decide

end Puzzle15

namespace Puzzle15

theorem tile_output_width (t : Tile) (h0 : 0 ≤ t.m_number) (h15 : t.m_number ≤ 15) :
    t.output.length = 4 ∧ (Char.ofNat 10) ∉ t.output.data := by
  cases t with
  | mk n => exact ⟨(tile_output_cases n h0 h15).1, (tile_output_cases n h0 h15).2.1⟩

theorem row_text (b : Board) (y : Fin 4) :
    String.join (indices.map fun x => (b.m_tiles y x).output) =
      (b.m_tiles y 0).output ++ (b.m_tiles y 1).output ++ (b.m_tiles y 2).output ++
        (b.m_tiles y 3).output := by
  simp [indices, String.join]

/-- C16: for every tile value `n` with `0 <= n <= 15` the text the `Tile` output
operator writes is exactly 4 characters long: four spaces for 0, two spaces,
the one digit and a space for `1 .. 9`, one space, the two digits and a space
for `10 .. 15`; hence for a board with such values every row of the rendering
is 16 characters, none of them a newline, followed by the newline. -/
theorem C16_output_width :
    (∀ n : Int, 0 ≤ n → n ≤ 15 →
      (Tile.mk n).output.length = 4 ∧
      (n = 0 → (Tile.mk n).output = "    ") ∧
      (1 ≤ n → n ≤ 9 →
        (Tile.mk n).output = "  " ++ intText n ++ " " ∧ (intText n).length = 1) ∧
      (10 ≤ n → (Tile.mk n).output = " " ++ intText n ++ " " ∧ (intText n).length = 2)) ∧
    (∀ b : Board, (∀ y x, 0 ≤ (b.m_tiles y x).m_number ∧ (b.m_tiles y x).m_number ≤ 15) →
      ∀ y, ∃ row : String, b.outputRow y = row ++ "\n" ∧ row.length = 16 ∧
        (Char.ofNat 10) ∉ row.data) := by
  constructor
  · intro n h0 h15
    obtain ⟨h1, _, h2, h3, h4⟩ := tile_output_cases n h0 h15
    exact ⟨h1, h2, h3, h4⟩
  · intro b hb y
    refine ⟨String.join (indices.map fun x => (b.m_tiles y x).output), rfl, ?_, ?_⟩
    · rw [row_text]
      simp only [String.length_append]
      rw [(tile_output_width _ (hb y 0).1 (hb y 0).2).1,
        (tile_output_width _ (hb y 1).1 (hb y 1).2).1,
        (tile_output_width _ (hb y 2).1 (hb y 2).2).1,
        (tile_output_width _ (hb y 3).1 (hb y 3).2).1]
    · rw [row_text]
      simp only [String.data_append, List.mem_append, not_or]
      exact ⟨⟨⟨(tile_output_width _ (hb y 0).1 (hb y 0).2).2,
        (tile_output_width _ (hb y 1).1 (hb y 1).2).2⟩,
        (tile_output_width _ (hb y 2).1 (hb y 2).2).2⟩,
        (tile_output_width _ (hb y 3).1 (hb y 3).2).2⟩

/-- Witness of C16: the tile 12, and the rows of the fresh board. -/
theorem C16_output_width_witness :
    ((0 : Int) ≤ 12 ∧ (12 : Int) ≤ 15 ∧ (Tile.mk 12).output.length = 4) ∧
    ((∀ y x, 0 ≤ (Board.new.m_tiles y x).m_number ∧ (Board.new.m_tiles y x).m_number ≤ 15) ∧
      ∀ y, ∃ row : String, Board.new.outputRow y = row ++ "\n" ∧ row.length = 16 ∧
        (Char.ofNat 10) ∉ row.data) :=
  have hb : ∀ y x,
      0 ≤ (Board.new.m_tiles y x).m_number ∧ (Board.new.m_tiles y x).m_number ≤ 15 := by
    decide
  ⟨⟨by decide, by decide, (C16_output_width.1 12 (by decide) (by decide)).1⟩,
    ⟨hb, C16_output_width.2 Board.new hb⟩⟩

end Puzzle15

namespace Puzzle15

/-! ## The driver loop -/

open UserInput

theorem getCommandLoop_append {pre : List Char} (c : Char) (rest : List Char)
    (hc : isValidCommand c = true) :
    ∀ ch, isValidCommand ch = false → (∀ a ∈ pre, isValidCommand a = false) →
      getCommandLoop ch (pre ++ c :: rest) = some (c, rest) := by
  induction pre with
  | nil =>
    intro ch hch _
    rw [List.nil_append, getCommandLoop_cons hch, getCommandLoop_of_valid hc]
  | cons a as ih =>
    intro ch hch hpre
    rw [List.cons_append, getCommandLoop_cons hch]
    exact ih a (hpre a (List.mem_cons_self _ _)) (fun x hx => hpre x (List.mem_cons_of_mem _ hx))

theorem getCommandLoop_result (input : List Char) :
    ∀ ch c rest, getCommandLoop ch input = some (c, rest) →
      isValidCommand c = true ∧ rest.length ≤ input.length ∧
        (isValidCommand ch = false → rest.length < input.length) := by
  induction input with
  | nil =>
    intro ch c rest h
    cases hv : isValidCommand ch with
    | false => simp [getCommandLoop, hv] at h
    | true =>
      rw [getCommandLoop_of_valid hv] at h
      cases h
      exact ⟨hv, Nat.le_refl _, fun h => by cases h⟩
  | cons a as ih =>
    intro ch c rest h
    cases hv : isValidCommand ch with
    | false =>
      rw [getCommandLoop_cons hv] at h
      obtain ⟨h1, h2, _⟩ := ih a c rest h
      exact ⟨h1, Nat.le_succ_of_le h2, fun _ => Nat.lt_succ_of_le h2⟩
    | true =>
      rw [getCommandLoop_of_valid hv] at h
      cases h
      exact ⟨hv, Nat.le_refl _, fun h => by cases h⟩

theorem charToDirection_ok {c : Char} (hc : isValidCommand c = true) (hq : c ≠ 'q') :
    ∃ d, charToDirection c = .ok d ∧ d ≠ Direction.max_direction := by
  rw [isValidCommand_iff] at hc
  rcases hc with rfl | rfl | rfl | rfl | rfl
  · exact ⟨Direction.up, by decide, by decide⟩
  · exact ⟨Direction.left, by decide, by decide⟩
  · exact ⟨Direction.down, by decide, by decide⟩
  · exact ⟨Direction.right, by decide, by decide⟩
  · exact absurd rfl hq

theorem mainBody_of_command {b b' : Board} {input rest : List Char} {c : Char} {d : Direction}
    {r : Bool} (hg : getCommandFromUser input = some (c, rest)) (hq : c ≠ 'q')
    (hd : charToDirection c = .ok d) (hm : b.moveTile d = .ok (r, b')) :
    mainBody b input = .ok (IterResult.next b' rest (if r then b'.output else "")) := by
  simp [mainBody, hg, hq, hd, hm]

theorem mainBody_of_quit (b : Board) {input rest : List Char}
    (hg : getCommandFromUser input = some ('q', rest)) :
    mainBody b input = .ok (IterResult.returned 0 "\n\nBye\n\n") := by
  simp [mainBody, hg]

/-- What one pass through the loop body does on a board with exactly one empty
tile: it waits, or returns 0 after reading `q` and writing the farewell, or
makes one `moveTile` call for a movement command and writes the new board when
the call was accepted. -/
theorem mainBody_cases (b : Board) (input : List Char) (h1 : b.emptyCount = 1) :
    (getCommandFromUser input = none ∧ mainBody b input = .ok IterResult.waiting) ∨
    (∃ rest, getCommandFromUser input = some ('q', rest) ∧
      mainBody b input = .ok (IterResult.returned 0 "\n\nBye\n\n")) ∨
    (∃ c rest d r b', getCommandFromUser input = some (c, rest) ∧ c ≠ 'q' ∧
      rest.length < input.length ∧
      charToDirection c = .ok d ∧ b.moveTile d = .ok (r, b') ∧ b'.emptyCount = 1 ∧
      (r = false → b' = b) ∧
      mainBody b input = .ok (IterResult.next b' rest (if r then b'.output else ""))) := by
  cases hg : getCommandFromUser input with
  | none => exact Or.inl ⟨rfl, by simp [mainBody, hg]⟩
  | some cr =>
    obtain ⟨c, rest⟩ := cr
    obtain ⟨hv, _, hlt⟩ := getCommandLoop_result input _ c rest hg
    by_cases hq : c = 'q'
    · subst hq
      exact Or.inr (Or.inl ⟨rest, rfl, mainBody_of_quit b hg⟩)
    · obtain ⟨d, hd, hdm⟩ := charToDirection_ok hv hq
      obtain ⟨ce, nd, _, _, _, _, _, hcase⟩ := Board.moveTile_cases b d (by omega) hdm
      refine Or.inr (Or.inr ?_)
      rcases hcase with ⟨_, hm⟩ | ⟨ca, _, hm⟩
      · exact ⟨c, rest, d, false, b, rfl, hq, hlt (by decide), hd, hm, h1, fun _ => rfl,
          mainBody_of_command hg hq hd hm⟩
      · exact ⟨c, rest, d, true, _, rfl, hq, hlt (by decide), hd, hm,
          (by rw [Board.emptyCount_swapCells]; exact h1), fun h => (by cases h),
          mainBody_of_command hg hq hd hm⟩

theorem mainLoop_won (fuel : Nat) {b : Board} (hw : b.playerWon = true) (input : List Char)
    (out : String) :
    mainLoop (fuel + 1) b input out = .ok (RunResult.exited 0 (out ++ "\n\nYou won!!!\n\n") b) := by
  simp [mainLoop, hw]

theorem mainLoop_step (fuel : Nat) {b : Board} (hw : b.playerWon = false) (input : List Char)
    (out : String) {r : IterResult} (hb : mainBody b input = .ok r) :
    mainLoop (fuel + 1) b input out =
      match r with
      | IterResult.returned code text => .ok (RunResult.exited code (out ++ text) b)
      | IterResult.waiting => .ok (RunResult.waiting out b)
      | IterResult.next b' rest text => mainLoop fuel b' rest (out ++ text) := by
  cases r <;> simp [mainLoop, hw, hb]

/-- Runs of the loop from a board with exactly one empty tile: no fault; with
more fuel than input characters the run is not cut short; an exit has code
0 and is either the victory exit, on a board with `playerWon()` true and with
the victory text written last, or the quit exit, on a board with `playerWon()`
false and with the farewell written last. -/
theorem mainLoop_exits (fuel : Nat) :
    ∀ (b : Board) (input : List Char) (out : String), b.emptyCount = 1 →
      (∀ f, mainLoop fuel b input out ≠ .error f) ∧
      (input.length < fuel → mainLoop fuel b input out ≠ .ok RunResult.unfinished) ∧
      (∀ code out' bf, mainLoop fuel b input out = .ok (RunResult.exited code out' bf) →
        code = 0 ∧ bf.emptyCount = 1 ∧
        ((bf.playerWon = true ∧ ∃ text, out' = text ++ "\n\nYou won!!!\n\n") ∨
         (bf.playerWon = false ∧ ∃ text, out' = text ++ "\n\nBye\n\n"))) := by
  induction fuel with
  | zero =>
    intro b input out _
    refine ⟨fun f h => (by simp [mainLoop] at h), fun h => (by omega), fun code out' bf h => ?_⟩
    simp [mainLoop] at h
  | succ fuel ih =>
    intro b input out h1
    cases hw : b.playerWon with
    | true =>
      rw [mainLoop_won fuel hw]
      refine ⟨fun f h => (by cases h), fun _ h => (by cases h), fun code out' bf h => ?_⟩
      cases h
      exact ⟨rfl, h1, Or.inl ⟨hw, out, rfl⟩⟩
    | false =>
      rcases mainBody_cases b input h1 with ⟨_, hb⟩ | ⟨rest, _, hb⟩ |
        ⟨c, rest, d, r, b', _, _, hlt, _, _, h1', _, hb⟩
      · rw [mainLoop_step fuel hw input out hb]
        exact ⟨fun f h => (by cases h), fun _ h => (by cases h), fun code out' bf h => by cases h⟩
      · rw [mainLoop_step fuel hw input out hb]
        refine ⟨fun f h => (by cases h), fun _ h => (by cases h), fun code out' bf h => ?_⟩
        cases h
        exact ⟨rfl, h1, Or.inr ⟨hw, out, rfl⟩⟩
      · rw [mainLoop_step fuel hw input out hb]
        obtain ⟨i1, i2, i3⟩ := ih b' rest (out ++ if r then b'.output else "") h1'
        exact ⟨i1, fun h => i2 (by omega), i3⟩

theorem mainBody_returned {b : Board} {input : List Char} {code : Int} {text : String}
    (h : mainBody b input = .ok (IterResult.returned code text)) :
    code = 0 ∧ text = "\n\nBye\n\n" ∧ ∃ rest, getCommandFromUser input = some ('q', rest) := by
  cases hg : getCommandFromUser input with
  | none => simp [mainBody, hg] at h
  | some cr =>
    obtain ⟨c, rest⟩ := cr
    by_cases hq : c = 'q'
    · subst hq
      rw [mainBody_of_quit b hg] at h
      cases h
      exact ⟨rfl, rfl, rest, rfl⟩
    · cases hd : charToDirection c with
      | error f => simp [mainBody, hg, hq, hd] at h
      | ok d =>
        cases hm : b.moveTile d with
        | error f => simp [mainBody, hg, hq, hd, hm] at h
        | ok rb => simp [mainBody, hg, hq, hd, hm] at h

/-- C17: on an unsolved board with exactly one empty tile, one pass of the
main loop that reads a movement command `c` of `w, a, s, d` (after invalid
characters, which are skipped) makes the call `moveTile(charToDirection(c))`;
when the call is rejected the board is unchanged and nothing is written, when
it is accepted exactly one rendering of the updated board is written.  The
loop body returns only after reading `q`, with value 0 and the farewell
written; and a run of the loop from a board with exactly one empty tile has no
fault and exits only with value 0, either with the farewell written last on
a board that is not solved, or with the victory text written last on a board
with `playerWon()` true. -/
theorem C17_driver_loop :
    (∀ (b : Board) (pre rest : List Char) (c : Char) (fuel : Nat) (out : String),
      b.playerWon = false → b.emptyCount = 1 → (c = 'w' ∨ c = 'a' ∨ c = 's' ∨ c = 'd') →
      (∀ a ∈ pre, isValidCommand a = false) →
      ∃ d r b', charToDirection c = .ok d ∧ b.moveTile d = .ok (r, b') ∧
        (r = false → b' = b ∧
          mainBody b (pre ++ c :: rest) = .ok (IterResult.next b rest "") ∧
          mainLoop (fuel + 1) b (pre ++ c :: rest) out = mainLoop fuel b rest out) ∧
        (r = true →
          mainBody b (pre ++ c :: rest) = .ok (IterResult.next b' rest b'.output) ∧
          mainLoop (fuel + 1) b (pre ++ c :: rest) out
            = mainLoop fuel b' rest (out ++ b'.output))) ∧
    (∀ (b : Board) (input : List Char) (code : Int) (text : String),
      mainBody b input = .ok (IterResult.returned code text) →
      code = 0 ∧ text = "\n\nBye\n\n" ∧ ∃ rest, getCommandFromUser input = some ('q', rest)) ∧
    (∀ (fuel : Nat) (b : Board) (input : List Char) (out : String), b.emptyCount = 1 →
      (∀ f, mainLoop fuel b input out ≠ .error f) ∧
      (input.length < fuel → mainLoop fuel b input out ≠ .ok RunResult.unfinished) ∧
      (∀ code out' bf, mainLoop fuel b input out = .ok (RunResult.exited code out' bf) →
        code = 0 ∧ bf.emptyCount = 1 ∧
        ((bf.playerWon = true ∧ ∃ text, out' = text ++ "\n\nYou won!!!\n\n") ∨
         (bf.playerWon = false ∧ ∃ text, out' = text ++ "\n\nBye\n\n")))) := by
  refine ⟨?_, fun b input code text h => mainBody_returned h,
    fun fuel b input out h1 => mainLoop_exits fuel b input out h1⟩
  intro b pre rest c fuel out hw h1 hc hpre
  have hv : isValidCommand c = true := by
    rw [isValidCommand_iff]
    rcases hc with h | h | h | h <;> simp [h]
  have hq : c ≠ 'q' := by
    rcases hc with h | h | h | h <;> rw [h] <;> decide
  have hg : getCommandFromUser (pre ++ c :: rest) = some (c, rest) :=
    getCommandLoop_append c rest hv _ (by decide) hpre
  obtain ⟨d, hd, hdm⟩ := charToDirection_ok hv hq
  obtain ⟨ce, nd, _, _, _, _, _, hcase⟩ := Board.moveTile_cases b d (by omega) hdm
  rcases hcase with ⟨_, hm⟩ | ⟨ca, _, hm⟩
  · refine ⟨d, false, b, hd, hm, fun _ => ⟨rfl, ?_, ?_⟩, fun h => (by cases h)⟩
    · exact mainBody_of_command hg hq hd hm
    · rw [mainLoop_step fuel hw _ out (mainBody_of_command hg hq hd hm)]
      simp
  · refine ⟨d, true, _, hd, hm, fun h => (by cases h), fun _ => ⟨?_, ?_⟩⟩
    · exact mainBody_of_command hg hq hd hm
    · rw [mainLoop_step fuel hw _ out (mainBody_of_command hg hq hd hm)]
      simp

/-- Witness of C17: the board one `moveTile(down)` away from the solved one,
the reads `x`, `w`. -/
theorem C17_driver_loop_witness :
    (Board.new.swapCells (2, 3) (3, 3)).playerWon = false ∧
    (Board.new.swapCells (2, 3) (3, 3)).emptyCount = 1 ∧
    (∀ a ∈ ['x'], isValidCommand a = false) ∧
    ∃ d r b', charToDirection 'w' = .ok d ∧
      (Board.new.swapCells (2, 3) (3, 3)).moveTile d = .ok (r, b') ∧
      (r = false → b' = Board.new.swapCells (2, 3) (3, 3) ∧
        mainBody (Board.new.swapCells (2, 3) (3, 3)) (['x'] ++ 'w' :: [])
          = .ok (IterResult.next (Board.new.swapCells (2, 3) (3, 3)) [] "") ∧
        mainLoop (1 + 1) (Board.new.swapCells (2, 3) (3, 3)) (['x'] ++ 'w' :: []) ""
          = mainLoop 1 (Board.new.swapCells (2, 3) (3, 3)) [] "") ∧
      (r = true →
        mainBody (Board.new.swapCells (2, 3) (3, 3)) (['x'] ++ 'w' :: [])
          = .ok (IterResult.next b' [] b'.output) ∧
        mainLoop (1 + 1) (Board.new.swapCells (2, 3) (3, 3)) (['x'] ++ 'w' :: []) ""
          = mainLoop 1 b' [] ("" ++ b'.output)) :=
  ⟨by decide, by decide, by decide,
    C17_driver_loop.1 (Board.new.swapCells (2, 3) (3, 3)) ['x'] [] 'w' 1 "" (by decide)
      (by decide) (Or.inl rfl) (by decide)⟩

end Puzzle15

namespace Puzzle15

namespace Board

/-! ## Shuffling: solved results, parity, progress -/

/-- C18: shuffling does not guarantee an unsolved board: there is a sequence of
draws, each in `0 .. 3`, on which `randomize()` started from the freshly
constructed board completes, with exactly 1000 accepted moves among the
`moveTile` calls it makes, and leaves a board on which `playerWon()` is true. -/
theorem C18_randomize_may_leave_solved :
    ∃ (draws : List Int) (B : Board) (flags : List Bool),
      (∀ r ∈ draws, 0 ≤ r ∧ r ≤ 3) ∧
      Board.new.randomize draws = .ok (some (B, [])) ∧
      Board.new.moveFlags (draws.map Direction.randomDirection) = .ok flags ∧
      flags.count true = 1000 ∧
      B.playerWon = true := by
  obtain ⟨used, flags, hu, hf, hn, _, _⟩ :=
    randomizeLoop_trace _ 0 Board.new Board.new [] (by norm_num) randomize_down_up
  rw [List.append_nil] at hu
  refine ⟨(List.replicate 500 [1, 0]).flatten, Board.new, flags, ?_, randomize_down_up,
    by rw [hu]; exact hf, by omega, by decide⟩
  intro r hr
  rw [List.mem_flatten] at hr
  obtain ⟨l, hl, hrl⟩ := hr
  rw [List.eq_of_mem_replicate hl] at hrl
  simp only [List.mem_cons, List.mem_singleton, List.not_mem_nil, or_false] at hrl
  rcases hrl with rfl | rfl <;> decide

theorem adjacent_parity {ce ca : Fin 4 × Fin 4} {nd : Direction}
    (h : (cellPoint ce).getAdjacentPoint nd = cellPoint ca) (hnd : nd ≠ Direction.max_direction) :
    ca ≠ ce ∧ (ca.1.val + ca.2.val + 1) % 2 = (ce.1.val + ce.2.val) % 2 := by
  obtain ⟨y, x⟩ := ce
  obtain ⟨y', x'⟩ := ca
  have hne : ∀ a b : Fin 4, (a.val : Int) ≠ b.val → a ≠ b := by
    intro a b h1 h2; exact h1 (by rw [h2])
  cases nd <;> simp only [cellPoint, Point.getAdjacentPoint, Point.mk.injEq] at h
  case max_direction => exact absurd rfl hnd
  all_goals
    obtain ⟨h1, h2⟩ := h
    refine ⟨fun he => ?_, by simp only; omega⟩
    simp only [Prod.mk.injEq] at he
    obtain ⟨rfl, rfl⟩ := he
    omega

/-- Along successive `moveTile` calls from a board with exactly one empty tile
that is the arrangement `σ` of the fresh board: every accepted call changes
the parity of `x + y` of the empty cell and composes the arrangement with
a transposition. -/
theorem moves_parity (ds : List Direction) :
    ∀ (b B : Board) (flags : List Bool) (σ : Equiv.Perm (Fin 4 × Fin 4)), b.emptyCount = 1 →
      (∀ c : Fin 4 × Fin 4, b.m_tiles c.1 c.2 = Board.new.m_tiles (σ c).1 (σ c).2) →
      b.moveFlags ds = .ok flags → b.moves ds = .ok B →
      ∃ (ce cB : Fin 4 × Fin 4) (τ : Equiv.Perm (Fin 4 × Fin 4)),
        b.getEmptyTilePos = .ok (cellPoint ce) ∧ B.getEmptyTilePos = .ok (cellPoint cB) ∧
        B.emptyCount = 1 ∧
        (cB.1.val + cB.2.val + flags.count true) % 2 = (ce.1.val + ce.2.val) % 2 ∧
        (∀ c : Fin 4 × Fin 4, B.m_tiles c.1 c.2 = Board.new.m_tiles (τ c).1 (τ c).2) ∧
        Equiv.Perm.sign τ = Equiv.Perm.sign σ * (-1) ^ flags.count true := by
  induction ds with
  | nil =>
    intro b B flags σ h1 hσ hf hm
    cases hf
    cases hm
    obtain ⟨ce, he, _⟩ := exists_getEmptyTilePos b (by omega)
    exact ⟨ce, ce, σ, he, he, h1, by simp, hσ, by simp⟩
  | cons d ds ih =>
    intro b B flags σ h1 hσ hf hm
    cases hmt : b.moveTile d with
    | error f => simp [moves, hmt] at hm
    | ok rb =>
      obtain ⟨r, b1⟩ := rb
      have hd : d ≠ Direction.max_direction := by
        intro hd; rw [hd] at hmt; exact moveTile_max_direction b _ hmt
      simp only [moves, hmt] at hm
      simp only [moveFlags, hmt] at hf
      cases hf1 : b1.moveFlags ds with
      | error f => rw [hf1] at hf; cases hf
      | ok fl =>
        rw [hf1] at hf
        cases hf
        obtain ⟨ce, nd, he, hce, hn, hnd, _, hcase⟩ := moveTile_cases b d (by omega) hd
        rcases hcase with ⟨_, hm'⟩ | ⟨ca, hca, hm'⟩
        · rw [hmt] at hm'
          cases hm'
          obtain ⟨ce', cB, τ, he', hB, hB1, hp, hτ, hs⟩ := ih b B fl σ h1 hσ hf1 hm
          rw [he] at he'
          cases cellPoint_injective (Except.ok.inj he')
          exact ⟨ce, cB, τ, he, hB, hB1, by simpa using hp, hτ, by simpa using hs⟩
        · rw [hmt] at hm'
          cases hm'
          obtain ⟨hne, hpar⟩ := adjacent_parity hca hnd
          have h1' : (b.swapCells ca ce).emptyCount = 1 := by
            rw [emptyCount_swapCells]; exact h1
          have he1 : (b.swapCells ca ce).getEmptyTilePos = .ok (cellPoint ca) :=
            getEmptyTilePos_eq_of_unique h1' (by rw [swapCells_apply_left]; exact hce)
          have hσ1 : ∀ c : Fin 4 × Fin 4, (b.swapCells ca ce).m_tiles c.1 c.2 =
              Board.new.m_tiles ((σ * Equiv.swap ca ce) c).1 ((σ * Equiv.swap ca ce) c).2 := by
            intro c
            exact hσ (Equiv.swap ca ce c)
          obtain ⟨ce', cB, τ, he', hB, hB1, hp, hτ, hs⟩ :=
            ih (b.swapCells ca ce) B fl (σ * Equiv.swap ca ce) h1' hσ1 hf1 hm
          rw [he1] at he'
          cases cellPoint_injective (Except.ok.inj he')
          refine ⟨ce, cB, τ, he, hB, hB1, ?_, hτ, ?_⟩
          · rw [List.count_cons_self]; omega
          · rw [hs, List.count_cons_self, Equiv.Perm.sign_mul, Equiv.Perm.sign_swap hne,
              pow_succ, mul_assoc]
            simp

end Board

end Puzzle15

namespace Puzzle15

namespace Board

theorem new_arrangement :
    ∀ c : Fin 4 × Fin 4, Board.new.m_tiles c.1 c.2 =
      Board.new.m_tiles ((1 : Equiv.Perm (Fin 4 × Fin 4)) c).1
        ((1 : Equiv.Perm (Fin 4 × Fin 4)) c).2 :=
  fun _ => rfl

theorem new_injective :
    ∀ c c' : Fin 4 × Fin 4, Board.new.m_tiles c.1 c.2 = Board.new.m_tiles c'.1 c'.2 → c = c' := by
  decide

theorem arrangement_unique {B : Board} {τ τ' : Equiv.Perm (Fin 4 × Fin 4)}
    (h : ∀ c : Fin 4 × Fin 4, B.m_tiles c.1 c.2 = Board.new.m_tiles (τ c).1 (τ c).2)
    (h' : ∀ y x, B.m_tiles y x = Board.new.m_tiles (τ' (y, x)).1 (τ' (y, x)).2) : τ' = τ := by
  ext c : 1
  exact new_injective _ _ ((h' c.1 c.2).symm.trans (h c))

/-- C19: on a board with exactly one empty tile every accepted `moveTile`
changes the parity of `x + y` of the empty tile's position.  After successive
`moveTile` calls from the solved board of which an even number were accepted,
the empty tile is at a cell with `x + y` even.  For every sequence of draws on
which `randomize()` completes from the solved board, the empty tile of the
result is at a cell with `x + y` even, and the result is the solved
arrangement rearranged by a permutation of the 16 cells, and every such
permutation is even. -/
theorem C19_parity :
    (∀ (b b' : Board) (d : Direction), b.emptyCount = 1 → b.moveTile d = .ok (true, b') →
      ∃ e e', b.getEmptyTilePos = .ok e ∧ b'.getEmptyTilePos = .ok e' ∧
        (e'.x + e'.y) % 2 ≠ (e.x + e.y) % 2) ∧
    (∀ (ds : List Direction) (flags : List Bool) (B : Board),
      Board.new.moveFlags ds = .ok flags → Board.new.moves ds = .ok B →
      flags.count true % 2 = 0 →
      ∃ e, B.getEmptyTilePos = .ok e ∧ (e.x + e.y) % 2 = 0) ∧
    (∀ (draws rest : List Int) (B : Board), Board.new.randomize draws = .ok (some (B, rest)) →
      ∃ (e : Point) (τ : Equiv.Perm (Fin 4 × Fin 4)),
        B.getEmptyTilePos = .ok e ∧ (e.x + e.y) % 2 = 0 ∧
        (∀ y x, B.m_tiles y x = Board.new.m_tiles (τ (y, x)).1 (τ (y, x)).2) ∧
        ∀ τ' : Equiv.Perm (Fin 4 × Fin 4),
          (∀ y x, B.m_tiles y x = Board.new.m_tiles (τ' (y, x)).1 (τ' (y, x)).2) →
          Equiv.Perm.sign τ' = 1) := by
  have hnew : Board.new.getEmptyTilePos = .ok (cellPoint (3, 3)) := by decide
  refine ⟨?_, ?_, ?_⟩
  · intro b b' d h1 hm
    have hd : d ≠ Direction.max_direction := by
      intro hd; rw [hd] at hm; exact moveTile_max_direction b _ hm
    obtain ⟨ce, nd, he, hce, _, hnd, _, hcase⟩ := moveTile_cases b d (by omega) hd
    rcases hcase with ⟨_, hm'⟩ | ⟨ca, hca, hm'⟩
    · rw [hm] at hm'; cases hm'
    · rw [hm] at hm'
      cases hm'
      obtain ⟨_, hpar⟩ := adjacent_parity hca hnd
      refine ⟨cellPoint ce, cellPoint ca, he, ?_, ?_⟩
      · exact getEmptyTilePos_eq_of_unique (by rw [emptyCount_swapCells]; exact h1)
          (by rw [swapCells_apply_left]; exact hce)
      · simp only [cellPoint]; omega
  · intro ds flags B hf hm hev
    obtain ⟨ce, cB, τ, he, hB, _, hp, _, _⟩ :=
      moves_parity ds Board.new B flags 1 (by decide) new_arrangement hf hm
    rw [hnew] at he
    cases cellPoint_injective (Except.ok.inj he)
    refine ⟨cellPoint cB, hB, ?_⟩
    simp only [cellPoint]
    simp only [Fin.val_ofNat'] at hp
    omega
  · intro draws rest B h
    obtain ⟨used, flags, _, hf, hn, _, hm⟩ :=
      randomizeLoop_trace draws 0 Board.new B rest (by norm_num) h
    have hc : flags.count true = 1000 := by omega
    obtain ⟨ce, cB, τ, he, hB, _, hp, hτ, hs⟩ :=
      moves_parity _ Board.new B flags 1 (by decide) new_arrangement hf hm
    rw [hnew] at he
    cases cellPoint_injective (Except.ok.inj he)
    refine ⟨cellPoint cB, τ, hB, ?_, fun y x => hτ (y, x), ?_⟩
    · simp only [cellPoint]
      rw [hc] at hp
      simp only [Fin.val_ofNat'] at hp
      omega
    · intro τ' hτ'
      rw [arrangement_unique hτ hτ', hs, hc, Equiv.Perm.sign_one, one_mul]
      exact Even.neg_one_pow ⟨500, by norm_num⟩

/-- Witness of C19: `moveTile(down)` on the fresh board; the calls `down`, `up`;
and 500 times the draws `1, 0`. -/
theorem C19_parity_witness :
    (Board.new.emptyCount = 1 ∧
      Board.new.moveTile Direction.down = .ok (true, Board.new.swapCells (2, 3) (3, 3)) ∧
      ∃ e e', Board.new.getEmptyTilePos = .ok e ∧
        (Board.new.swapCells (2, 3) (3, 3)).getEmptyTilePos = .ok e' ∧
        (e'.x + e'.y) % 2 ≠ (e.x + e.y) % 2) ∧
    (Board.new.randomize (List.replicate 500 [1, 0]).flatten = .ok (some (Board.new, [])) ∧
      ∃ (e : Point) (τ : Equiv.Perm (Fin 4 × Fin 4)),
        Board.new.getEmptyTilePos = .ok e ∧ (e.x + e.y) % 2 = 0 ∧
        (∀ y x, Board.new.m_tiles y x = Board.new.m_tiles (τ (y, x)).1 (τ (y, x)).2) ∧
        ∀ τ' : Equiv.Perm (Fin 4 × Fin 4),
          (∀ y x, Board.new.m_tiles y x = Board.new.m_tiles (τ' (y, x)).1 (τ' (y, x)).2) →
          Equiv.Perm.sign τ' = 1) :=
  have hm : Board.new.moveTile Direction.down = .ok (true, Board.new.swapCells (2, 3) (3, 3)) :=
    moveTile_accepted (show Board.new.getEmptyTilePos = .ok (cellPoint (3, 3)) by decide) rfl
      (by decide)
  ⟨⟨by decide, hm, C19_parity.1 Board.new _ Direction.down (by decide) hm⟩,
    ⟨randomize_down_up, C19_parity.2.2 _ [] Board.new randomize_down_up⟩⟩

/-! ## Progress of the retry loop -/

theorem accepts_eq {b : Board} (h1 : 0 < b.emptyCount) :
    ∃ ce : Fin 4 × Fin 4, b.getEmptyTilePos = .ok (cellPoint ce) ∧
      ∀ d nd, d.neg = .ok nd →
        b.accepts d = isValidTilePos ((cellPoint ce).getAdjacentPoint nd) ∧
        ∃ b', b.moveTile d = .ok (isValidTilePos ((cellPoint ce).getAdjacentPoint nd), b') := by
  obtain ⟨ce, he, _⟩ := exists_getEmptyTilePos b h1
  refine ⟨ce, he, fun d nd hn => ?_⟩
  cases hv : isValidTilePos ((cellPoint ce).getAdjacentPoint nd) with
  | false =>
    have hm := moveTile_rejected he hn hv
    exact ⟨by simp [accepts, hm], b, hm⟩
  | true =>
    obtain ⟨ca, hca⟩ := exists_cell_of_isValidTilePos hv
    have hm := moveTile_accepted he hn hca
    exact ⟨by simp [accepts, hm], _, hm⟩

theorem valid_axis (ce : Fin 4 × Fin 4) :
    (isValidTilePos ((cellPoint ce).getAdjacentPoint Direction.up) = true ∨
      isValidTilePos ((cellPoint ce).getAdjacentPoint Direction.down) = true) ∧
    (isValidTilePos ((cellPoint ce).getAdjacentPoint Direction.left) = true ∨
      isValidTilePos ((cellPoint ce).getAdjacentPoint Direction.right) = true) := by
  revert ce; decide

/-- C20: on a board with exactly one empty tile, for each of the four
directions `d`, the calls `moveTile(d)` and `moveTile(-d)` both return and at
least one of them is accepted; of the four directions at least two and at most
four are accepted; and some draw in `0 .. 3` gives a direction whose
`moveTile` call is accepted, so the retry loop of `randomize()` is never in
a state where every possible draw is rejected. -/
theorem C20_progress (b : Board) (h1 : b.emptyCount = 1) :
    (∀ d : Direction, d ≠ Direction.max_direction →
      ∃ nd r1 b1 r2 b2, d.neg = .ok nd ∧ b.moveTile d = .ok (r1, b1) ∧
        b.moveTile nd = .ok (r2, b2) ∧ (r1 = true ∨ r2 = true)) ∧
    2 ≤ ([Direction.up, Direction.down, Direction.left, Direction.right].filter
      b.accepts).length ∧
    ([Direction.up, Direction.down, Direction.left, Direction.right].filter
      b.accepts).length ≤ 4 ∧
    (∃ r : Int, 0 ≤ r ∧ r ≤ 3 ∧
      ∃ b', b.moveTile (Direction.randomDirection r) = .ok (true, b')) := by
  obtain ⟨ce, he, hacc⟩ := accepts_eq (show 0 < b.emptyCount by omega)
  obtain ⟨hud, hlr⟩ := valid_axis ce
  refine ⟨?_, ?_, ?_, ?_⟩
  · intro d hd
    obtain ⟨nd, hn, _, hnn⟩ := neg_ok hd
    obtain ⟨_, b1, hm1⟩ := hacc d nd hn
    obtain ⟨_, b2, hm2⟩ := hacc nd d hnn
    refine ⟨nd, _, b1, _, b2, hn, hm1, hm2, ?_⟩
    cases d
    case max_direction => exact absurd rfl hd
    all_goals
      cases hn
      first | exact hud | exact hud.symm | exact hlr | exact hlr.symm
  · have e : [Direction.up, Direction.down, Direction.left, Direction.right].filter b.accepts
        = ([Direction.up, Direction.down, Direction.left, Direction.right].filter
            fun d => match d.neg with
              | .ok nd => isValidTilePos ((cellPoint ce).getAdjacentPoint nd)
              | .error _ => false) := by
      apply List.filter_congr
      intro d hd
      simp only [List.mem_cons, List.mem_singleton, List.not_mem_nil, or_false] at hd
      rcases hd with rfl | rfl | rfl | rfl
      · exact (hacc Direction.up Direction.down rfl).1
      · exact (hacc Direction.down Direction.up rfl).1
      · exact (hacc Direction.left Direction.right rfl).1
      · exact (hacc Direction.right Direction.left rfl).1
    rw [e]
    clear e hacc hud hlr he
    revert ce
    decide
  · exact (List.length_filter_le _ _).trans (by simp)
  · rcases hud with h | h
    · obtain ⟨ha, b', hm⟩ := hacc Direction.down Direction.up rfl
      rw [h] at hm
      exact ⟨1, by norm_num, by norm_num, b', hm⟩
    · obtain ⟨ha, b', hm⟩ := hacc Direction.up Direction.down rfl
      rw [h] at hm
      exact ⟨0, by norm_num, by norm_num, b', hm⟩

/-- Witness of C20: the fresh board. -/
theorem C20_progress_witness :
    Board.new.emptyCount = 1 ∧
    2 ≤ ([Direction.up, Direction.down, Direction.left, Direction.right].filter
      Board.new.accepts).length ∧
    ([Direction.up, Direction.down, Direction.left, Direction.right].filter
      Board.new.accepts).length ≤ 4 :=
  ⟨by decide, (C20_progress Board.new (by decide)).2.1, (C20_progress Board.new (by decide)).2.2.1⟩

end Board

end Puzzle15
